import Mathlib

/-!
LedgerDelta (src/ledger/LedgerDelta.cpp)

A shallow embedding of the change-set bookkeeping of `LedgerDelta`:
the three containers `mNew`, `mMod`, `mDelete`, the elementary recording
calls `addEntry`, `deleteEntry`, `modEntry`, `merge`, and the serialization
`getTransactionMeta`; and of the store calls of `TrustFrame`
(src/ledger/TrustFrame.cpp).

A failed `assert` is the result `none` (the spec's `InvariantViolation`);
a call that runs to its end is `some` of the state it leaves.
-/

namespace Stellar

/-! ## Data model -/

/-- Modelled from the spec: the declaration of `LedgerKey` (generated XDR) is
not among the sources.  Spec §3: an opaque, immutable identity, totally ordered
by its canonical byte encoding; that encoding is read as a natural number. -/
abbrev LedgerKey := Nat

/-- An entry frame: the entry content `mEntry` together with the key that
`getKey()` computes for it.  The content is kept abstract (a number). -/
structure EntryFrame where
  mKey : LedgerKey
  mEntry : Nat
deriving DecidableEq, Repr

/-- The call `entry->getKey()`. -/
def EntryFrame.getKey (e : EntryFrame) : LedgerKey := e.mKey

/-- Modelled from the spec: `LedgerDelta.h` is not among the sources.  `mNew` and
`mMod` are ordered maps from `LedgerKey` to entry frame (spec §3: mapping
EntryKey → Entry, keys totally ordered for deterministic iteration): a list of
key/value pairs, iterated front to back, kept in ascending key order. -/
abbrev KeyEntryMap := List (LedgerKey × EntryFrame)

/-- Modelled from the spec: `mDelete` is an ordered set of `LedgerKey`
(spec §3: set of EntryKey): a list kept in ascending order. -/
abbrev KeySet := List LedgerKey

/-- The three containers of a `LedgerDelta`. -/
structure LedgerDelta where
  mNew : KeyEntryMap
  mMod : KeyEntryMap
  mDelete : KeySet
deriving DecidableEq, Repr

/-- A freshly constructed delta: all three containers empty. -/
def LedgerDelta.fresh : LedgerDelta := LedgerDelta.mk [] [] []

/-! ## Container primitives (`std::map`, `std::set`) -/

/-- The lookup `m.find(k)`: the value stored under `k`, or `none` for `m.end()`. -/
def mapFind : KeyEntryMap → LedgerKey → Option EntryFrame
  | [], _ => none
  | (k', e) :: rest, k => if k' = k then some e else mapFind rest k

/-- The removal `m.erase(k)` (also `m.erase(it)` for an iterator at key `k`). -/
def mapErase (m : KeyEntryMap) (k : LedgerKey) : KeyEntryMap :=
  m.filter (fun p => decide (p.1 ≠ k))

/-- The assignment `m[k] = e`: replaces the value under `k` when present, else
inserts the pair at its place in key order. -/
def mapAssign : KeyEntryMap → LedgerKey → EntryFrame → KeyEntryMap
  | [], k, e => [(k, e)]
  | (k', e') :: rest, k, e =>
    if k < k' then (k, e) :: (k', e') :: rest
    else if k = k' then (k, e) :: rest
    else (k', e') :: mapAssign rest k e

/-- The test `s.find(k) != s.end()`. -/
def setFind (s : KeySet) (k : LedgerKey) : Bool := decide (k ∈ s)

/-- The removal `s.erase(k)`. -/
def setErase (s : KeySet) (k : LedgerKey) : KeySet :=
  s.filter (fun j => decide (j ≠ k))

/-- The insertion `s.insert(k)`: no effect when `k` is present, else inserts `k`
at its place in key order. -/
def setInsert : KeySet → LedgerKey → KeySet
  | [], k => [k]
  | k' :: rest, k =>
    if k < k' then k :: k' :: rest
    else if k = k' then k' :: rest
    else k' :: setInsert rest k

/-! ## The recording calls -/

/-- The method `LedgerDelta::addEntry(EntryFrame::pointer)`. -/
def addEntry (S : LedgerDelta) (entry : EntryFrame) : Option LedgerDelta :=
  let k := entry.getKey
  if setFind S.mDelete k then
    -- delete + new is an update
    some (LedgerDelta.mk S.mNew (mapAssign S.mMod k entry) (setErase S.mDelete k))
  else if (mapFind S.mNew k).isSome then none      -- assert: double new
  else if (mapFind S.mMod k).isSome then none      -- assert: mod + new is invalid
  else some (LedgerDelta.mk (mapAssign S.mNew k entry) S.mMod S.mDelete)

/-- The method `LedgerDelta::deleteEntry(LedgerKey const&)`. -/
def deleteEntry (S : LedgerDelta) (k : LedgerKey) : Option LedgerDelta :=
  if (mapFind S.mNew k).isSome then
    -- new + delete -> don't add it in the first place
    some (LedgerDelta.mk (mapErase S.mNew k) S.mMod S.mDelete)
  else if setFind S.mDelete k then none            -- assert: double delete is invalid
  else some (LedgerDelta.mk S.mNew (mapErase S.mMod k) (setInsert S.mDelete k))

/-- The method `LedgerDelta::modEntry(EntryFrame::pointer)`. -/
def modEntry (S : LedgerDelta) (entry : EntryFrame) : Option LedgerDelta :=
  let k := entry.getKey
  if (mapFind S.mMod k).isSome then
    -- collapse mod
    some (LedgerDelta.mk S.mNew (mapAssign S.mMod k entry) S.mDelete)
  else if (mapFind S.mNew k).isSome then
    -- new + mod = new (with latest value)
    some (LedgerDelta.mk (mapAssign S.mNew k entry) S.mMod S.mDelete)
  else if setFind S.mDelete k then none            -- assert: delete + mod is illegal
  else some (LedgerDelta.mk S.mNew (mapAssign S.mMod k entry) S.mDelete)

/-- A range-based `for` loop whose body is one call on the delta: the calls are
made front to back, and the first failed assertion ends the run. -/
def forEach {α : Type} (body : LedgerDelta → α → Option LedgerDelta) :
    LedgerDelta → List α → Option LedgerDelta
  | S, [] => some S
  | S, a :: rest =>
    match body S a with
    | none => none
    | some S' => forEach body S' rest

/-- The method `LedgerDelta::merge(LedgerDelta &other)`: replays the deleted keys
of `other`, then its new entries, then its modified entries. -/
def merge (S other : LedgerDelta) : Option LedgerDelta :=
  match forEach deleteEntry S other.mDelete with
  | none => none
  | some S1 =>
    match forEach (fun s n => addEntry s n.2) S1 other.mNew with
    | none => none
    | some S2 => forEach (fun s m => modEntry s m.2) S2 other.mMod

/-! ## Call sequences -/

/-- One elementary recording call. -/
inductive Call where
  | add (e : EntryFrame)
  | del (k : LedgerKey)
  | mod (e : EntryFrame)
deriving DecidableEq, Repr

/-- The key a call is about. -/
def Call.key : Call → LedgerKey
  | Call.add e => e.getKey
  | Call.del k => k
  | Call.mod e => e.getKey

/-- Makes one recording call on a delta. -/
def applyCall (S : LedgerDelta) : Call → Option LedgerDelta
  | Call.add e => addEntry S e
  | Call.del k => deleteEntry S k
  | Call.mod e => modEntry S e

/-- Replays a sequence of recording calls, in order, on a delta. -/
def replay (S : LedgerDelta) (s : List Call) : Option LedgerDelta :=
  forEach applyCall S s

/-! ## Predicates on states -/

/-- The key `k` is present in `mNew`. -/
def LedgerDelta.inNew (S : LedgerDelta) (k : LedgerKey) : Prop := (mapFind S.mNew k).isSome = true

/-- The key `k` is present in `mMod`. -/
def LedgerDelta.inMod (S : LedgerDelta) (k : LedgerKey) : Prop := (mapFind S.mMod k).isSome = true

/-- The key `k` is present in `mDelete`. -/
def LedgerDelta.inDelete (S : LedgerDelta) (k : LedgerKey) : Prop := setFind S.mDelete k = true

/-- The disjointness invariant: every key is in at most one of the three containers. -/
def LedgerDelta.Disjoint (S : LedgerDelta) : Prop :=
  ∀ k, ¬ (S.inNew k ∧ S.inMod k) ∧ ¬ (S.inNew k ∧ S.inDelete k) ∧ ¬ (S.inMod k ∧ S.inDelete k)

/-- The keys of a map, in iteration order. -/
def mapKeys (m : KeyEntryMap) : List LedgerKey := m.map Prod.fst

/-- Every value of the map is stored under its own key (`getKey()`). -/
def mapCoherent (m : KeyEntryMap) : Prop := ∀ p ∈ m, p.2.getKey = p.1

/-- The representation invariant of the containers: each is in strictly
ascending key order (an ordered map or set holds a key once), and each entry
frame is stored under the key `getKey()` gives for it. -/
def LedgerDelta.WellFormed (S : LedgerDelta) : Prop :=
  ((mapKeys S.mNew).Pairwise (· < ·) ∧ mapCoherent S.mNew) ∧
  ((mapKeys S.mMod).Pairwise (· < ·) ∧ mapCoherent S.mMod) ∧
  S.mDelete.Pairwise (· < ·)


/-! ## The per-key view used in the proofs

Each recording call reads and writes the three containers at one key only, so
its effect can be read off key by key. -/

/-- What the three containers hold for one key: the value under it in `mNew`,
the value under it in `mMod`, and whether it is in `mDelete`. -/
structure Slot where
  n : Option EntryFrame
  m : Option EntryFrame
  d : Bool
deriving DecidableEq, Repr

/-- The slot of key `j` in a delta. -/
def LedgerDelta.view (S : LedgerDelta) (j : LedgerKey) : Slot :=
  Slot.mk (mapFind S.mNew j) (mapFind S.mMod j) (setFind S.mDelete j)

/-- The slot is occupied in at most one of the three containers. -/
def Slot.Disjoint (p : Slot) : Prop :=
  ¬ (p.n.isSome = true ∧ p.m.isSome = true) ∧ ¬ (p.n.isSome = true ∧ p.d = true) ∧
    ¬ (p.m.isSome = true ∧ p.d = true)

/-- The effect of `addEntry` on the slot of the entry's key. -/
def slotAdd (p : Slot) (e : EntryFrame) : Option Slot :=
  if p.d then some (Slot.mk p.n (some e) false)
  else if p.n.isSome then none
  else if p.m.isSome then none
  else some (Slot.mk (some e) p.m p.d)

/-- The effect of `deleteEntry` on the slot of the deleted key. -/
def slotDel (p : Slot) : Option Slot :=
  if p.n.isSome then some (Slot.mk none p.m p.d)
  else if p.d then none
  else some (Slot.mk p.n none true)

/-- The effect of `modEntry` on the slot of the entry's key. -/
def slotMod (p : Slot) (e : EntryFrame) : Option Slot :=
  if p.m.isSome then some (Slot.mk p.n (some e) p.d)
  else if p.n.isSome then some (Slot.mk (some e) p.m p.d)
  else if p.d then none
  else some (Slot.mk p.n (some e) p.d)

/-- The effect of one call on the slot of key `j`: calls about other keys leave it alone. -/
def slotCall (j : LedgerKey) (p : Slot) (c : Call) : Option Slot :=
  if c.key = j then
    match c with
    | Call.add e => slotAdd p e
    | Call.del _ => slotDel p
    | Call.mod e => slotMod p e
  else some p

/-- The effect of a call sequence on the slot of key `j`. -/
def slotReplay (j : LedgerKey) : Slot → List Call → Option Slot
  | p, [] => some p
  | p, c :: rest =>
    match slotCall j p c with
    | none => none
    | some p' => slotReplay j p' rest

/-- The effect of `merge` on one slot of the parent, given the child's slot of
the same key: the child's delete, then its new entry, then its modified entry. -/
def slotMerge (p c : Slot) : Option Slot :=
  match (if c.d then slotDel p else some p) with
  | none => none
  | some p1 =>
    match (match c.n with | some e => slotAdd p1 e | none => some p1) with
    | none => none
    | some p2 =>
      match c.m with
      | some e => slotMod p2 e
      | none => some p2



/-! ## Serialization (`getTransactionMeta`) -/

/-- Modelled from the spec: the XDR type `CLFEntryBase` (generated) is not among
the sources.  Spec §6: a tagged record, either live with the entry content or
dead with the key only. -/
inductive CLFEntryBase where
  | liveEntry (entry : Nat)
  | deadEntry (key : LedgerKey)
deriving DecidableEq, Repr

/-- The method `LedgerDelta::getTransactionMeta() const`: the records of
`tm.entries` in the order of the `push_back` calls.  The final `xdr_to_msg`
(library code) encodes this sequence and is not modelled. -/
def getTransactionMeta (S : LedgerDelta) : List CLFEntryBase :=
  let tm : List CLFEntryBase := []
  let tm := S.mNew.foldl (fun tm k => tm ++ [CLFEntryBase.liveEntry k.2.mEntry]) tm
  let tm := S.mMod.foldl (fun tm k => tm ++ [CLFEntryBase.liveEntry k.2.mEntry]) tm
  S.mDelete.foldl (fun tm k => tm ++ [CLFEntryBase.deadEntry k]) tm

/-- The record is a dead one. -/
def CLFEntryBase.isDead : CLFEntryBase → Bool
  | CLFEntryBase.liveEntry _ => false
  | CLFEntryBase.deadEntry _ => true

/-! ## The calls a merge makes -/

/-- The calls `merge` makes on the parent for a child `other`, in the order it makes
them: one `deleteEntry` per deleted key, one `addEntry` per new entry, one
`modEntry` per modified entry. -/
def mergeCalls (other : LedgerDelta) : List Call :=
  other.mDelete.map Call.del ++ other.mNew.map (fun n => Call.add n.2) ++
    other.mMod.map (fun m => Call.mod m.2)

/-! ## Trust lines (src/ledger/TrustFrame.cpp) -/

/-- Modelled from the spec: the XDR type `TrustLineEntry` (generated) is not among
the sources; the fields are those `TrustFrame.cpp` reads.  Identifiers and the
currency code are kept abstract (numbers); `limit` and `balance` are `int64_t`. -/
structure TrustLineEntry where
  accountID : Nat
  currencyIsNative : Bool
  issuer : Nat
  currencyCode : Nat
  limit : Int
  balance : Int
  authorized : Bool
deriving DecidableEq, Repr

/-- The method `TrustFrame::isValid() const`. -/
def TrustFrame.isValid (tl : TrustLineEntry) : Bool :=
  let res := !tl.currencyIsNative
  let res := res && decide (tl.balance ≥ 0)
  let res := res && decide (tl.balance ≤ tl.limit)
  res

/-- One row of the table `TrustLines` declared by `kSQLCreateStatement`.  The text
columns hold the base58 or code text of an identifier, read here as the
identifier itself. -/
structure TrustLinesRow where
  accountID : Nat
  issuer : Nat
  isoCurrency : Nat
  tlimit : Int
  balance : Int
  authorized : Bool
deriving DecidableEq, Repr

/-- The declared default of the column `balance` (`BIGINT NOT NULL DEFAULT 0`). -/
def TrustLinesRow.balanceDefault : Int := 0

/-- The row the `INSERT INTO TrustLines (accountID, issuer, isoCurrency, tlimit,
authorized) VALUES (:v1,:v2,:v3,:v4,:v5)` of `storeAdd` writes: the five listed
columns take the bound values, the column `balance`, which the statement does
not list, takes its declared default. -/
def storeAddRow (tl : TrustLineEntry) : TrustLinesRow :=
  TrustLinesRow.mk tl.accountID tl.issuer tl.currencyCode tl.limit
    TrustLinesRow.balanceDefault tl.authorized

/-- The row the `UPDATE TrustLines SET balance=:b, tlimit=:tl, authorized=:a` of
`storeChange` leaves for the key of the trust line. -/
def storeChangeRow (tl : TrustLineEntry) : TrustLinesRow :=
  TrustLinesRow.mk tl.accountID tl.issuer tl.currencyCode tl.limit tl.balance tl.authorized

/-- How a store call ends: a failed `assert(isValid())`, the `runtime_error` thrown
when the statement did not affect exactly one row, or the row written together
with the trust line handed to the `LedgerDelta` (`*this`). -/
inductive StoreOutcome where
  | assertFailed
  | runtimeError
  | stored (row : TrustLinesRow) (recorded : TrustLineEntry)
deriving DecidableEq, Repr

/-- The method `TrustFrame::storeAdd`, for the number of rows the database reports
as affected by the statement. -/
def storeAdd (tl : TrustLineEntry) (affectedRows : Nat) : StoreOutcome :=
  if TrustFrame.isValid tl then
    if affectedRows ≠ 1 then StoreOutcome.runtimeError
    else StoreOutcome.stored (storeAddRow tl) tl
  else StoreOutcome.assertFailed

/-- The method `TrustFrame::storeChange`, for the number of rows the database
reports as affected by the statement. -/
def storeChange (tl : TrustLineEntry) (affectedRows : Nat) : StoreOutcome :=
  if TrustFrame.isValid tl then
    if affectedRows ≠ 1 then StoreOutcome.runtimeError
    else StoreOutcome.stored (storeChangeRow tl) tl
  else StoreOutcome.assertFailed

/-! ## Container lemmas -/

theorem mapFind_isSome_iff (m : KeyEntryMap) (k : LedgerKey) :
    (mapFind m k).isSome = true ↔ k ∈ mapKeys m := by
  induction m with
  | nil => simp [mapFind, mapKeys]
  | cons p rest ih =>
    obtain ⟨k', e⟩ := p
    by_cases h : k' = k
    · simp [mapFind, mapKeys, h]
    · have h' : ¬ k = k' := fun hh => h hh.symm
      simp only [mapKeys] at ih
      simp [mapFind, mapKeys, h, h', ih]

theorem mapFind_eq_none_iff (m : KeyEntryMap) (k : LedgerKey) :
    mapFind m k = none ↔ k ∉ mapKeys m := by
  rw [← mapFind_isSome_iff]
  cases mapFind m k <;> simp

theorem mapErase_cons (k' : LedgerKey) (e : EntryFrame) (rest : KeyEntryMap) (k : LedgerKey) :
    mapErase ((k', e) :: rest) k = if k' = k then mapErase rest k else (k', e) :: mapErase rest k := by
  by_cases h : k' = k <;> simp [mapErase, List.filter_cons, h]

theorem mapFind_mapErase (m : KeyEntryMap) (k j : LedgerKey) :
    mapFind (mapErase m k) j = if j = k then none else mapFind m j := by
  induction m with
  | nil => simp [mapFind, mapErase]
  | cons p rest ih =>
    obtain ⟨k', e⟩ := p
    rw [mapErase_cons]
    by_cases h : k' = k
    · subst h
      by_cases hj : j = k'
      · subst hj
        simp [ih]
      · have hj' : ¬ k' = j := fun hh => hj hh.symm
        simp [ih, hj, mapFind, hj']
    · by_cases hj : j = k
      · subst hj
        simp [ih, h, mapFind]
      · simp [ih, h, mapFind, hj]

theorem mapFind_mapAssign (m : KeyEntryMap) (k : LedgerKey) (e : EntryFrame) (j : LedgerKey) :
    mapFind (mapAssign m k e) j = if j = k then some e else mapFind m j := by
  induction m with
  | nil =>
    by_cases hj : j = k
    · simp [mapFind, mapAssign, hj]
    · have hj' : ¬ k = j := fun hh => hj hh.symm
      simp [mapFind, mapAssign, hj, hj']
  | cons p rest ih =>
    obtain ⟨k', e'⟩ := p
    by_cases hj : j = k
    · subst hj
      by_cases h1 : j < k'
      · simp [mapAssign, h1, mapFind]
      · by_cases h2 : j = k'
        · simp [mapAssign, h2, mapFind]
        · have h2' : ¬ k' = j := fun hh => h2 hh.symm
          simp [mapAssign, h1, h2, mapFind, ih, h2']
    · have hj' : ¬ k = j := fun hh => hj hh.symm
      by_cases h1 : k < k'
      · simp [mapAssign, h1, mapFind, hj, hj']
      · by_cases h2 : k = k'
        · subst h2
          simp [mapAssign, mapFind, hj, hj']
        · simp [mapAssign, h1, h2, mapFind, ih, hj]

theorem setFind_iff (s : KeySet) (k : LedgerKey) : setFind s k = true ↔ k ∈ s := by
  simp [setFind]

theorem setFind_setErase (s : KeySet) (k j : LedgerKey) :
    setFind (setErase s k) j = if j = k then false else setFind s j := by
  by_cases hj : j = k
  · simp [setFind, setErase, hj]
  · simp [setFind, setErase, hj]

theorem mem_setInsert (s : KeySet) (k j : LedgerKey) :
    j ∈ setInsert s k ↔ j = k ∨ j ∈ s := by
  induction s with
  | nil => simp [setInsert]
  | cons k' rest ih =>
    by_cases h1 : k < k'
    · simp [setInsert, h1]
    · by_cases h2 : k = k'
      · subst h2
        simp [setInsert]
      · simp [setInsert, h1, h2, ih]
        tauto

theorem setFind_setInsert (s : KeySet) (k j : LedgerKey) :
    setFind (setInsert s k) j = if j = k then true else setFind s j := by
  by_cases hj : j = k
  · simp [setFind, mem_setInsert, hj]
  · simp [setFind, mem_setInsert, hj]


/-! ## The recording calls, key by key -/

theorem disjoint_iff_view (S : LedgerDelta) : S.Disjoint ↔ ∀ j, (S.view j).Disjoint := by
  rfl

theorem view_addEntry {S S' : LedgerDelta} {e : EntryFrame} (h : addEntry S e = some S') :
    slotAdd (S.view e.getKey) e = some (S'.view e.getKey) ∧
      ∀ j, j ≠ e.getKey → S'.view j = S.view j := by
  unfold addEntry at h
  simp only [] at h
  split at h
  · rename_i h1
    cases h
    refine ⟨?_, ?_⟩
    · simp [slotAdd, LedgerDelta.view, h1, mapFind_mapAssign, setFind_setErase]
    · intro j hj
      simp [LedgerDelta.view, mapFind_mapAssign, setFind_setErase, hj]
  · rename_i h1
    split at h
    · cases h
    · rename_i h2
      split at h
      · cases h
      · rename_i h3
        cases h
        refine ⟨?_, ?_⟩
        · simp [slotAdd, LedgerDelta.view, h1, h2, h3, mapFind_mapAssign]
        · intro j hj
          simp [LedgerDelta.view, mapFind_mapAssign, hj]

theorem addEntry_eq_none {S : LedgerDelta} {e : EntryFrame} (h : addEntry S e = none) :
    slotAdd (S.view e.getKey) e = none := by
  unfold addEntry at h
  simp only [] at h
  split at h
  · cases h
  · rename_i h1
    split at h
    · rename_i h2
      simp [slotAdd, LedgerDelta.view, h1, h2]
    · rename_i h2
      split at h
      · rename_i h3
        simp [slotAdd, LedgerDelta.view, h1, h2, h3]
      · cases h

theorem view_deleteEntry {S S' : LedgerDelta} {k : LedgerKey} (h : deleteEntry S k = some S') :
    slotDel (S.view k) = some (S'.view k) ∧ ∀ j, j ≠ k → S'.view j = S.view j := by
  unfold deleteEntry at h
  split at h
  · rename_i h1
    cases h
    refine ⟨?_, ?_⟩
    · simp [slotDel, LedgerDelta.view, h1, mapFind_mapErase]
    · intro j hj
      simp [LedgerDelta.view, mapFind_mapErase, hj]
  · rename_i h1
    split at h
    · cases h
    · rename_i h2
      cases h
      refine ⟨?_, ?_⟩
      · simp [slotDel, LedgerDelta.view, h1, h2, mapFind_mapErase, setFind_setInsert]
      · intro j hj
        simp [LedgerDelta.view, mapFind_mapErase, setFind_setInsert, hj]

theorem deleteEntry_eq_none {S : LedgerDelta} {k : LedgerKey} (h : deleteEntry S k = none) :
    slotDel (S.view k) = none := by
  unfold deleteEntry at h
  split at h
  · cases h
  · rename_i h1
    split at h
    · rename_i h2
      simp [slotDel, LedgerDelta.view, h1, h2]
    · cases h

theorem view_modEntry {S S' : LedgerDelta} {e : EntryFrame} (h : modEntry S e = some S') :
    slotMod (S.view e.getKey) e = some (S'.view e.getKey) ∧
      ∀ j, j ≠ e.getKey → S'.view j = S.view j := by
  unfold modEntry at h
  simp only [] at h
  split at h
  · rename_i h1
    cases h
    refine ⟨?_, ?_⟩
    · simp [slotMod, LedgerDelta.view, h1, mapFind_mapAssign]
    · intro j hj
      simp [LedgerDelta.view, mapFind_mapAssign, hj]
  · rename_i h1
    split at h
    · rename_i h2
      cases h
      refine ⟨?_, ?_⟩
      · simp [slotMod, LedgerDelta.view, h1, h2, mapFind_mapAssign]
      · intro j hj
        simp [LedgerDelta.view, mapFind_mapAssign, hj]
    · rename_i h2
      split at h
      · cases h
      · rename_i h3
        cases h
        refine ⟨?_, ?_⟩
        · simp [slotMod, LedgerDelta.view, h1, h2, h3, mapFind_mapAssign]
        · intro j hj
          simp [LedgerDelta.view, mapFind_mapAssign, hj]

theorem modEntry_eq_none {S : LedgerDelta} {e : EntryFrame} (h : modEntry S e = none) :
    slotMod (S.view e.getKey) e = none := by
  unfold modEntry at h
  simp only [] at h
  split at h
  · cases h
  · rename_i h1
    split at h
    · cases h
    · rename_i h2
      split at h
      · rename_i h3
        simp [slotMod, LedgerDelta.view, h1, h2, h3]
      · cases h


/-! ## Disjointness is kept -/

theorem slotAdd_disjoint {p p' : Slot} {e : EntryFrame} (hp : p.Disjoint)
    (h : slotAdd p e = some p') : p'.Disjoint := by
  obtain ⟨n, m, d⟩ := p
  cases n <;> cases m <;> cases d <;>
    simp [slotAdd, Slot.Disjoint] at h hp ⊢ <;> subst h <;> simp

theorem slotDel_disjoint {p p' : Slot} (hp : p.Disjoint)
    (h : slotDel p = some p') : p'.Disjoint := by
  obtain ⟨n, m, d⟩ := p
  cases n <;> cases m <;> cases d <;>
    simp [slotDel, Slot.Disjoint] at h hp ⊢ <;> subst h <;> simp

theorem slotMod_disjoint {p p' : Slot} {e : EntryFrame} (hp : p.Disjoint)
    (h : slotMod p e = some p') : p'.Disjoint := by
  obtain ⟨n, m, d⟩ := p
  cases n <;> cases m <;> cases d <;>
    simp [slotMod, Slot.Disjoint] at h hp ⊢ <;> subst h <;> simp

theorem addEntry_disjoint {S S' : LedgerDelta} {e : EntryFrame} (hS : S.Disjoint)
    (h : addEntry S e = some S') : S'.Disjoint := by
  rw [disjoint_iff_view] at hS ⊢
  intro j
  obtain ⟨h1, h2⟩ := view_addEntry h
  by_cases hj : j = e.getKey
  · subst hj
    exact slotAdd_disjoint (hS _) h1
  · rw [h2 j hj]
    exact hS j

theorem deleteEntry_disjoint {S S' : LedgerDelta} {k : LedgerKey} (hS : S.Disjoint)
    (h : deleteEntry S k = some S') : S'.Disjoint := by
  rw [disjoint_iff_view] at hS ⊢
  intro j
  obtain ⟨h1, h2⟩ := view_deleteEntry h
  by_cases hj : j = k
  · subst hj
    exact slotDel_disjoint (hS _) h1
  · rw [h2 j hj]
    exact hS j

theorem modEntry_disjoint {S S' : LedgerDelta} {e : EntryFrame} (hS : S.Disjoint)
    (h : modEntry S e = some S') : S'.Disjoint := by
  rw [disjoint_iff_view] at hS ⊢
  intro j
  obtain ⟨h1, h2⟩ := view_modEntry h
  by_cases hj : j = e.getKey
  · subst hj
    exact slotMod_disjoint (hS _) h1
  · rw [h2 j hj]
    exact hS j

/-- A property kept by every successful run of the loop body is kept by the loop. -/
theorem forEach_keeps {α : Type} (Q : LedgerDelta → Prop)
    (body : LedgerDelta → α → Option LedgerDelta)
    (hbody : ∀ S a S', Q S → body S a = some S' → Q S')
    (l : List α) : ∀ S S', Q S → forEach body S l = some S' → Q S' := by
  induction l with
  | nil =>
    intro S S' hS h
    simp [forEach] at h
    subst h
    exact hS
  | cons a rest ih =>
    intro S S' hS h
    simp only [forEach] at h
    cases hb : body S a with
    | none => simp [hb] at h
    | some S1 =>
      simp only [hb] at h
      exact ih S1 S' (hbody S a S1 hS hb) h

theorem merge_keeps (Q : LedgerDelta → Prop)
    (hadd : ∀ S e S', Q S → addEntry S e = some S' → Q S')
    (hdel : ∀ S k S', Q S → deleteEntry S k = some S' → Q S')
    (hmod : ∀ S e S', Q S → modEntry S e = some S' → Q S')
    {S C S' : LedgerDelta} (hS : Q S) (h : merge S C = some S') : Q S' := by
  unfold merge at h
  cases h1 : forEach deleteEntry S C.mDelete with
  | none => simp [h1] at h
  | some S1 =>
    simp only [h1] at h
    cases h2 : forEach (fun s n => addEntry s n.2) S1 C.mNew with
    | none => simp [h2] at h
    | some S2 =>
      simp only [h2] at h
      have q1 : Q S1 := forEach_keeps Q deleteEntry hdel _ S S1 hS h1
      have q2 : Q S2 :=
        forEach_keeps Q (fun (s : LedgerDelta) (n : LedgerKey × EntryFrame) => addEntry s n.2)
          (fun T a T' hT hb => hadd T a.2 T' hT hb)
          _ S1 S2 q1 h2
      exact forEach_keeps Q (fun (s : LedgerDelta) (m : LedgerKey × EntryFrame) => modEntry s m.2)
        (fun T a T' hT hb => hmod T a.2 T' hT hb)
        _ S2 S' q2 h

theorem merge_disjoint {S C S' : LedgerDelta} (hS : S.Disjoint) (h : merge S C = some S') :
    S'.Disjoint :=
  merge_keeps LedgerDelta.Disjoint (fun _ _ _ hT hb => addEntry_disjoint hT hb)
    (fun _ _ _ hT hb => deleteEntry_disjoint hT hb) (fun _ _ _ hT hb => modEntry_disjoint hT hb) hS h

theorem fresh_disjoint : LedgerDelta.fresh.Disjoint := by
  intro k
  simp [LedgerDelta.fresh, LedgerDelta.inNew, LedgerDelta.inMod, LedgerDelta.inDelete, mapFind, setFind]


/-- A list-level test for disjointness, for concrete states. -/
theorem disjoint_of_keys (S : LedgerDelta)
    (h1 : ∀ k ∈ mapKeys S.mNew, k ∉ mapKeys S.mMod ∧ k ∉ S.mDelete)
    (h2 : ∀ k ∈ mapKeys S.mMod, k ∉ S.mDelete) : S.Disjoint := by
  intro k
  simp only [LedgerDelta.inNew, LedgerDelta.inMod, LedgerDelta.inDelete, mapFind_isSome_iff,
    setFind_iff]
  refine ⟨fun h => (h1 k h.1).1 h.2, fun h => (h1 k h.1).2 h.2, fun h => h2 k h.1 h.2⟩


/-! ## The representation invariant is kept -/

theorem mapErase_sorted {m : KeyEntryMap} (k : LedgerKey)
    (h : (mapKeys m).Pairwise (· < ·)) : (mapKeys (mapErase m k)).Pairwise (· < ·) :=
  List.Pairwise.sublist ((List.filter_sublist m).map Prod.fst) h

theorem mapErase_coherent {m : KeyEntryMap} (k : LedgerKey) (h : mapCoherent m) :
    mapCoherent (mapErase m k) := by
  intro p hp
  exact h p (List.mem_filter.mp hp).1

theorem mem_mapAssign {m : KeyEntryMap} {k : LedgerKey} {e : EntryFrame}
    {p : LedgerKey × EntryFrame} (hp : p ∈ mapAssign m k e) : p = (k, e) ∨ p ∈ m := by
  induction m with
  | nil => simpa [mapAssign] using hp
  | cons q rest ih =>
    obtain ⟨k', e'⟩ := q
    by_cases h1 : k < k'
    · simp only [mapAssign, h1, if_true, List.mem_cons] at hp
      rcases hp with hp | hp | hp
      · exact Or.inl hp
      · exact Or.inr (by simp [hp])
      · exact Or.inr (by simp [hp])
    · by_cases h2 : k = k'
      · subst h2
        simp only [mapAssign, h1, if_false, if_true, List.mem_cons] at hp
        rcases hp with hp | hp
        · exact Or.inl hp
        · exact Or.inr (by simp [hp])
      · simp only [mapAssign, h1, h2, if_false, List.mem_cons] at hp
        rcases hp with hp | hp
        · exact Or.inr (by simp [hp])
        · rcases ih hp with h | h
          · exact Or.inl h
          · exact Or.inr (by simp [h])

theorem mapAssign_coherent {m : KeyEntryMap} (e : EntryFrame) (h : mapCoherent m) :
    mapCoherent (mapAssign m e.getKey e) := by
  intro p hp
  rcases mem_mapAssign hp with hp | hp
  · rw [hp]
  · exact h p hp

theorem mem_mapKeys_mapAssign {m : KeyEntryMap} {k : LedgerKey} {e : EntryFrame} {x : LedgerKey}
    (hx : x ∈ mapKeys (mapAssign m k e)) : x = k ∨ x ∈ mapKeys m := by
  simp only [mapKeys, List.mem_map] at hx ⊢
  obtain ⟨p, hp, rfl⟩ := hx
  rcases mem_mapAssign hp with h | h
  · exact Or.inl (by rw [h])
  · exact Or.inr ⟨p, h, rfl⟩

theorem mapAssign_sorted {m : KeyEntryMap} (k : LedgerKey) (e : EntryFrame)
    (h : (mapKeys m).Pairwise (· < ·)) : (mapKeys (mapAssign m k e)).Pairwise (· < ·) := by
  induction m with
  | nil => simp [mapAssign, mapKeys]
  | cons q rest ih =>
    obtain ⟨k', e'⟩ := q
    have h' : (∀ x ∈ mapKeys rest, k' < x) ∧ (mapKeys rest).Pairwise (· < ·) := by
      simpa [mapKeys] using h
    by_cases h1 : k < k'
    · simp only [mapAssign, h1, if_true]
      have : mapKeys ((k, e) :: (k', e') :: rest) = k :: k' :: mapKeys rest := by simp [mapKeys]
      rw [this]
      refine List.pairwise_cons.mpr ⟨?_, List.pairwise_cons.mpr ⟨h'.1, h'.2⟩⟩
      intro x hx
      rcases List.mem_cons.mp hx with hx | hx
      · rw [hx]; exact h1
      · exact lt_trans h1 (h'.1 x hx)
    · by_cases h2 : k = k'
      · subst h2
        simp only [mapAssign, h1, if_false, if_true]
        have : mapKeys ((k, e) :: rest) = k :: mapKeys rest := by simp [mapKeys]
        rw [this]
        exact List.pairwise_cons.mpr ⟨h'.1, h'.2⟩
      · simp only [mapAssign, h1, h2, if_false]
        have : mapKeys ((k', e') :: mapAssign rest k e) = k' :: mapKeys (mapAssign rest k e) := by
          simp [mapKeys]
        rw [this]
        refine List.pairwise_cons.mpr ⟨?_, ih h'.2⟩
        intro x hx
        rcases mem_mapKeys_mapAssign hx with hx | hx
        · rw [hx]
          exact lt_of_le_of_ne (not_lt.mp h1) (fun hh => h2 hh.symm)
        · exact h'.1 x hx

theorem setErase_sorted {s : KeySet} (k : LedgerKey) (h : s.Pairwise (· < ·)) :
    (setErase s k).Pairwise (· < ·) :=
  List.Pairwise.sublist (List.filter_sublist s) h

theorem setInsert_sorted {s : KeySet} (k : LedgerKey) (h : s.Pairwise (· < ·)) :
    (setInsert s k).Pairwise (· < ·) := by
  induction s with
  | nil => simp [setInsert]
  | cons k' rest ih =>
    obtain ⟨hk, hr⟩ := List.pairwise_cons.mp h
    by_cases h1 : k < k'
    · simp only [setInsert, h1, if_true]
      refine List.pairwise_cons.mpr ⟨?_, h⟩
      intro x hx
      rcases List.mem_cons.mp hx with hx | hx
      · rw [hx]; exact h1
      · exact lt_trans h1 (hk x hx)
    · by_cases h2 : k = k'
      · subst h2
        simp only [setInsert, h1, if_false, if_true]
        exact h
      · simp only [setInsert, h1, h2, if_false]
        refine List.pairwise_cons.mpr ⟨?_, ih hr⟩
        intro x hx
        rcases (mem_setInsert rest k x).mp hx with hx | hx
        · rw [hx]
          exact lt_of_le_of_ne (not_lt.mp h1) (fun hh => h2 hh.symm)
        · exact hk x hx

theorem fresh_wellFormed : LedgerDelta.fresh.WellFormed := by
  simp [LedgerDelta.WellFormed, LedgerDelta.fresh, mapKeys, mapCoherent]

theorem addEntry_wellFormed {S S' : LedgerDelta} {e : EntryFrame} (hS : S.WellFormed)
    (h : addEntry S e = some S') : S'.WellFormed := by
  obtain ⟨⟨hn1, hn2⟩, ⟨hm1, hm2⟩, hd⟩ := hS
  unfold addEntry at h
  simp only [] at h
  split at h
  · cases h
    exact ⟨⟨hn1, hn2⟩, ⟨mapAssign_sorted _ _ hm1, mapAssign_coherent e hm2⟩, setErase_sorted _ hd⟩
  · split at h
    · cases h
    · split at h
      · cases h
      · cases h
        exact ⟨⟨mapAssign_sorted _ _ hn1, mapAssign_coherent e hn2⟩, ⟨hm1, hm2⟩, hd⟩

theorem deleteEntry_wellFormed {S S' : LedgerDelta} {k : LedgerKey} (hS : S.WellFormed)
    (h : deleteEntry S k = some S') : S'.WellFormed := by
  obtain ⟨⟨hn1, hn2⟩, ⟨hm1, hm2⟩, hd⟩ := hS
  unfold deleteEntry at h
  split at h
  · cases h
    exact ⟨⟨mapErase_sorted _ hn1, mapErase_coherent _ hn2⟩, ⟨hm1, hm2⟩, hd⟩
  · split at h
    · cases h
    · cases h
      exact ⟨⟨hn1, hn2⟩, ⟨mapErase_sorted _ hm1, mapErase_coherent _ hm2⟩, setInsert_sorted _ hd⟩

theorem modEntry_wellFormed {S S' : LedgerDelta} {e : EntryFrame} (hS : S.WellFormed)
    (h : modEntry S e = some S') : S'.WellFormed := by
  obtain ⟨⟨hn1, hn2⟩, ⟨hm1, hm2⟩, hd⟩ := hS
  unfold modEntry at h
  simp only [] at h
  split at h
  · cases h
    exact ⟨⟨hn1, hn2⟩, ⟨mapAssign_sorted _ _ hm1, mapAssign_coherent e hm2⟩, hd⟩
  · split at h
    · cases h
      exact ⟨⟨mapAssign_sorted _ _ hn1, mapAssign_coherent e hn2⟩, ⟨hm1, hm2⟩, hd⟩
    · split at h
      · cases h
      · cases h
        exact ⟨⟨hn1, hn2⟩, ⟨mapAssign_sorted _ _ hm1, mapAssign_coherent e hm2⟩, hd⟩

theorem merge_wellFormed {S C S' : LedgerDelta} (hS : S.WellFormed) (h : merge S C = some S') :
    S'.WellFormed :=
  merge_keeps LedgerDelta.WellFormed (fun _ _ _ hT hb => addEntry_wellFormed hT hb)
    (fun _ _ _ hT hb => deleteEntry_wellFormed hT hb)
    (fun _ _ _ hT hb => modEntry_wellFormed hT hb) hS h

theorem applyCall_wellFormed {S S' : LedgerDelta} {c : Call} (hS : S.WellFormed)
    (h : applyCall S c = some S') : S'.WellFormed := by
  cases c with
  | add e => exact addEntry_wellFormed hS h
  | del k => exact deleteEntry_wellFormed hS h
  | mod e => exact modEntry_wellFormed hS h

theorem applyCall_disjoint {S S' : LedgerDelta} {c : Call} (hS : S.Disjoint)
    (h : applyCall S c = some S') : S'.Disjoint := by
  cases c with
  | add e => exact addEntry_disjoint hS h
  | del k => exact deleteEntry_disjoint hS h
  | mod e => exact modEntry_disjoint hS h

theorem replay_wellFormed {S S' : LedgerDelta} {s : List Call} (hS : S.WellFormed)
    (h : replay S s = some S') : S'.WellFormed :=
  forEach_keeps LedgerDelta.WellFormed applyCall (fun _ _ _ hT hb => applyCall_wellFormed hT hb)
    s S S' hS h

theorem replay_disjoint {S S' : LedgerDelta} {s : List Call} (hS : S.Disjoint)
    (h : replay S s = some S') : S'.Disjoint :=
  forEach_keeps LedgerDelta.Disjoint applyCall (fun _ _ _ hT hb => applyCall_disjoint hT hb)
    s S S' hS h

/-! ## Two well-formed states with the same slots are equal -/

theorem mapFind_eq_none_of_lt {m : KeyEntryMap} {k : LedgerKey}
    (h : ∀ x ∈ mapKeys m, k < x) : mapFind m k = none := by
  rw [mapFind_eq_none_iff]
  intro hk
  exact lt_irrefl k (h k hk)

theorem map_ext : ∀ (m1 m2 : KeyEntryMap), (mapKeys m1).Pairwise (· < ·) →
    (mapKeys m2).Pairwise (· < ·) → (∀ j, mapFind m1 j = mapFind m2 j) → m1 = m2
  | [], [], _, _, _ => rfl
  | [], (k2, e2) :: r2, _, _, h => by
    have := h k2
    simp [mapFind] at this
  | (k1, e1) :: r1, [], _, _, h => by
    have := h k1
    simp [mapFind] at this
  | (k1, e1) :: r1, (k2, e2) :: r2, h1, h2, h => by
    have h1' : (∀ x ∈ mapKeys r1, k1 < x) ∧ (mapKeys r1).Pairwise (· < ·) := by
      simpa [mapKeys] using h1
    have h2' : (∀ x ∈ mapKeys r2, k2 < x) ∧ (mapKeys r2).Pairwise (· < ·) := by
      simpa [mapKeys] using h2
    have hk : k1 = k2 := by
      rcases Nat.lt_trichotomy k1 k2 with hlt | heq | hgt
      · have := h k1
        have hne : ¬ k2 = k1 := fun hh => (ne_of_lt hlt) hh.symm
        have hnone : mapFind r2 k1 = none :=
          mapFind_eq_none_of_lt (fun x hx => lt_trans hlt (h2'.1 x hx))
        simp [mapFind, hne, hnone] at this
      · exact heq
      · have := h k2
        have hne : ¬ k1 = k2 := fun hh => (ne_of_gt hgt) hh
        have hnone : mapFind r1 k2 = none :=
          mapFind_eq_none_of_lt (fun x hx => lt_trans hgt (h1'.1 x hx))
        simp [mapFind, hne, hnone] at this
    subst hk
    have he : e1 = e2 := by
      have := h k1
      simpa [mapFind] using this
    subst he
    have hr : r1 = r2 := by
      apply map_ext r1 r2 h1'.2 h2'.2
      intro j
      by_cases hj : k1 = j
      · subst hj
        rw [mapFind_eq_none_of_lt h1'.1, mapFind_eq_none_of_lt h2'.1]
      · have := h j
        simpa [mapFind, hj] using this
    rw [hr]

theorem set_ext : ∀ (s1 s2 : KeySet), s1.Pairwise (· < ·) → s2.Pairwise (· < ·) →
    (∀ j, setFind s1 j = setFind s2 j) → s1 = s2 := by
  intro s1 s2 h1 h2 h
  apply List.eq_of_perm_of_sorted _ h1 h2
  rw [List.perm_ext_iff_of_nodup (h1.imp ne_of_lt) (h2.imp ne_of_lt)]
  intro a
  have := h a
  simp only [setFind] at this
  constructor
  · intro ha
    have : decide (a ∈ s2) = true := by rw [← this]; exact decide_eq_true ha
    exact of_decide_eq_true this
  · intro ha
    have : decide (a ∈ s1) = true := by rw [this]; exact decide_eq_true ha
    exact of_decide_eq_true this

theorem delta_ext {S T : LedgerDelta} (hS : S.WellFormed) (hT : T.WellFormed)
    (h : ∀ j, S.view j = T.view j) : S = T := by
  obtain ⟨n1, m1, d1⟩ := S
  obtain ⟨n2, m2, d2⟩ := T
  obtain ⟨⟨hn1, _⟩, ⟨hm1, _⟩, hd1⟩ := hS
  obtain ⟨⟨hn2, _⟩, ⟨hm2, _⟩, hd2⟩ := hT
  have hn : n1 = n2 := map_ext n1 n2 hn1 hn2 (fun j => by
    have := h j
    simp only [LedgerDelta.view, Slot.mk.injEq] at this
    exact this.1)
  have hm : m1 = m2 := map_ext m1 m2 hm1 hm2 (fun j => by
    have := h j
    simp only [LedgerDelta.view, Slot.mk.injEq] at this
    exact this.2.1)
  have hd : d1 = d2 := set_ext d1 d2 hd1 hd2 (fun j => by
    have := h j
    simp only [LedgerDelta.view, Slot.mk.injEq] at this
    exact this.2.2)
  rw [hn, hm, hd]


/-! ## Loops over distinct keys, key by key -/

/-- A loop whose body acts on one key per element, over elements with distinct
keys: each element's key gets the body's effect on its slot at the start of the
loop, and every other key keeps its slot. -/
theorem forEach_view {α : Type} (body : LedgerDelta → α → Option LedgerDelta)
    (key : α → LedgerKey) (sl : Slot → α → Option Slot)
    (hsome : ∀ S a S', body S a = some S' →
      sl (S.view (key a)) a = some (S'.view (key a)) ∧ ∀ j, j ≠ key a → S'.view j = S.view j)
    (l : List α) (hnd : (l.map key).Nodup) :
    ∀ S R, forEach body S l = some R →
      (∀ a ∈ l, sl (S.view (key a)) a = some (R.view (key a))) ∧
      (∀ j, j ∉ l.map key → R.view j = S.view j) := by
  induction l with
  | nil =>
    intro S R h
    simp [forEach] at h
    subst h
    simp
  | cons a rest ih =>
    intro S R h
    simp only [forEach] at h
    rw [List.map_cons, List.nodup_cons] at hnd
    cases hb : body S a with
    | none => simp [hb] at h
    | some S1 =>
      simp only [hb] at h
      obtain ⟨ih1, ih2⟩ := ih hnd.2 S1 R h
      obtain ⟨hs1, hs2⟩ := hsome S a S1 hb
      constructor
      · intro b hbm
        rcases List.mem_cons.mp hbm with hba | hbr
        · subst hba
          rw [ih2 (key b) hnd.1]
          exact hs1
        · have hne : key b ≠ key a := by
            intro hh
            apply hnd.1
            rw [← hh]
            exact List.mem_map_of_mem key hbr
          rw [← hs2 (key b) hne]
          exact ih1 b hbr
      · intro j hj
        rw [List.map_cons, List.mem_cons, not_or] at hj
        rw [ih2 j hj.2]
        exact hs2 j hj.1

/-- A loop over elements with distinct keys that fails: the body fails on the slot
that some element's key had at the start of the loop. -/
theorem forEach_none {α : Type} (body : LedgerDelta → α → Option LedgerDelta)
    (key : α → LedgerKey) (sl : Slot → α → Option Slot)
    (hsome : ∀ S a S', body S a = some S' →
      sl (S.view (key a)) a = some (S'.view (key a)) ∧ ∀ j, j ≠ key a → S'.view j = S.view j)
    (hnone : ∀ S a, body S a = none → sl (S.view (key a)) a = none)
    (l : List α) (hnd : (l.map key).Nodup) :
    ∀ S, forEach body S l = none → ∃ a ∈ l, sl (S.view (key a)) a = none := by
  induction l with
  | nil =>
    intro S h
    simp [forEach] at h
  | cons a rest ih =>
    intro S h
    simp only [forEach] at h
    rw [List.map_cons, List.nodup_cons] at hnd
    cases hb : body S a with
    | none => exact ⟨a, List.mem_cons_self a rest, hnone S a hb⟩
    | some S1 =>
      simp only [hb] at h
      obtain ⟨b, hbr, hbn⟩ := ih hnd.2 S1 h
      obtain ⟨_, hs2⟩ := hsome S a S1 hb
      have hne : key b ≠ key a := by
        intro hh
        apply hnd.1
        rw [← hh]
        exact List.mem_map_of_mem key hbr
      refine ⟨b, List.mem_cons_of_mem a hbr, ?_⟩
      rw [← hs2 (key b) hne]
      exact hbn

theorem mem_of_mapFind {m : KeyEntryMap} {j : LedgerKey} {e : EntryFrame}
    (h : mapFind m j = some e) : (j, e) ∈ m := by
  induction m with
  | nil => simp [mapFind] at h
  | cons q rest ih =>
    obtain ⟨k', e'⟩ := q
    by_cases hk : k' = j
    · subst hk
      simp [mapFind] at h
      subst h
      exact List.mem_cons_self _ _
    · simp [mapFind, hk] at h
      exact List.mem_cons_of_mem _ (ih h)

theorem mapFind_of_mem {m : KeyEntryMap} {j : LedgerKey} {e : EntryFrame}
    (hs : (mapKeys m).Pairwise (· < ·)) (h : (j, e) ∈ m) : mapFind m j = some e := by
  induction m with
  | nil => simp at h
  | cons q rest ih =>
    obtain ⟨k', e'⟩ := q
    have hs' : (∀ x ∈ mapKeys rest, k' < x) ∧ (mapKeys rest).Pairwise (· < ·) := by
      simpa [mapKeys] using hs
    rcases List.mem_cons.mp h with hh | hh
    · cases hh
      simp [mapFind]
    · have hj : j ∈ mapKeys rest := List.mem_map_of_mem Prod.fst hh
      have hne : ¬ k' = j := ne_of_lt (hs'.1 j hj)
      simp only [mapFind, hne, if_false]
      exact ih hs'.2 hh

theorem map_key_eq_mapKeys {m : KeyEntryMap} (hc : mapCoherent m) :
    m.map (fun n => n.2.getKey) = mapKeys m := by
  unfold mapKeys
  apply List.map_congr_left
  intro p hp
  exact hc p hp

theorem sorted_nodup {l : List LedgerKey} (h : l.Pairwise (· < ·)) : l.Nodup :=
  h.imp ne_of_lt

/-! ## Merge, key by key -/

/-- The loop over the child's deleted keys, seen at one key of the parent. -/
theorem merge_deletes_view {P P1 C : LedgerDelta} (hC : C.WellFormed)
    (h : forEach deleteEntry P C.mDelete = some P1) (j : LedgerKey) :
    (if (C.view j).d then slotDel (P.view j) else some (P.view j)) = some (P1.view j) := by
  have hnd : (C.mDelete.map id).Nodup := by
    rw [List.map_id]
    exact sorted_nodup hC.2.2
  obtain ⟨h1, h2⟩ := forEach_view deleteEntry id (fun p _ => slotDel p)
    (fun S a S' hb => view_deleteEntry hb) C.mDelete hnd P P1 h
  by_cases hj : j ∈ C.mDelete
  · have : (C.view j).d = true := by simp [LedgerDelta.view, setFind, hj]
    rw [this]
    exact h1 j hj
  · have : (C.view j).d = false := by simp [LedgerDelta.view, setFind, hj]
    rw [this]
    simp only [Bool.false_eq_true, if_false, Option.some.injEq]
    exact (h2 j (by simpa using hj)).symm

/-- The loop over the child's new entries, seen at one key of the parent. -/
theorem merge_news_view {P1 P2 C : LedgerDelta} (hC : C.WellFormed)
    (h : forEach (fun (s : LedgerDelta) (n : LedgerKey × EntryFrame) => addEntry s n.2) P1 C.mNew
      = some P2) (j : LedgerKey) :
    (match (C.view j).n with
      | some e => slotAdd (P1.view j) e
      | none => some (P1.view j)) = some (P2.view j) := by
  have hkeys := map_key_eq_mapKeys hC.1.2
  have hnd : (C.mNew.map (fun n => n.2.getKey)).Nodup := by
    rw [hkeys]
    exact sorted_nodup hC.1.1
  obtain ⟨h1, h2⟩ := forEach_view
    (fun (s : LedgerDelta) (n : LedgerKey × EntryFrame) => addEntry s n.2)
    (fun n => n.2.getKey) (fun p n => slotAdd p n.2)
    (fun S a S' hb => view_addEntry hb) C.mNew hnd P1 P2 h
  cases hf : mapFind C.mNew j with
  | none =>
    have hj : j ∉ C.mNew.map (fun n => n.2.getKey) := by
      rw [hkeys]
      exact (mapFind_eq_none_iff _ _).mp hf
    simp only [LedgerDelta.view, hf, Option.some.injEq]
    exact (h2 j hj).symm
  | some e =>
    have hmem := mem_of_mapFind hf
    have hk : e.getKey = j := hC.1.2 _ hmem
    have := h1 _ hmem
    simp only [hk] at this
    simpa [LedgerDelta.view, hf] using this

/-- The loop over the child's modified entries, seen at one key of the parent. -/
theorem merge_mods_view {P2 R C : LedgerDelta} (hC : C.WellFormed)
    (h : forEach (fun (s : LedgerDelta) (m : LedgerKey × EntryFrame) => modEntry s m.2) P2 C.mMod
      = some R) (j : LedgerKey) :
    (match (C.view j).m with
      | some e => slotMod (P2.view j) e
      | none => some (P2.view j)) = some (R.view j) := by
  have hkeys := map_key_eq_mapKeys hC.2.1.2
  have hnd : (C.mMod.map (fun n => n.2.getKey)).Nodup := by
    rw [hkeys]
    exact sorted_nodup hC.2.1.1
  obtain ⟨h1, h2⟩ := forEach_view
    (fun (s : LedgerDelta) (m : LedgerKey × EntryFrame) => modEntry s m.2)
    (fun n => n.2.getKey) (fun p n => slotMod p n.2)
    (fun S a S' hb => view_modEntry hb) C.mMod hnd P2 R h
  cases hf : mapFind C.mMod j with
  | none =>
    have hj : j ∉ C.mMod.map (fun n => n.2.getKey) := by
      rw [hkeys]
      exact (mapFind_eq_none_iff _ _).mp hf
    simp only [LedgerDelta.view, hf, Option.some.injEq]
    exact (h2 j hj).symm
  | some e =>
    have hmem := mem_of_mapFind hf
    have hk : e.getKey = j := hC.2.1.2 _ hmem
    have := h1 _ hmem
    simp only [hk] at this
    simpa [LedgerDelta.view, hf] using this

/-- A merge that completes acts on every key as `slotMerge` says. -/
theorem merge_view {P C R : LedgerDelta} (hC : C.WellFormed) (h : merge P C = some R)
    (j : LedgerKey) : slotMerge (P.view j) (C.view j) = some (R.view j) := by
  unfold merge at h
  cases h1 : forEach deleteEntry P C.mDelete with
  | none => simp [h1] at h
  | some P1 =>
    simp only [h1] at h
    cases h2 : forEach (fun s n => addEntry s n.2) P1 C.mNew with
    | none => simp [h2] at h
    | some P2 =>
      simp only [h2] at h
      have e1 := merge_deletes_view hC h1 j
      have e2 := merge_news_view hC h2 j
      have e3 := merge_mods_view hC h j
      unfold slotMerge
      rw [e1]
      simp only []
      rw [e2]
      simp only []
      exact e3

/-- A merge that fails does so at some key at which `slotMerge` fails. -/
theorem merge_none {P C : LedgerDelta} (hC : C.WellFormed) (h : merge P C = none) :
    ∃ j, slotMerge (P.view j) (C.view j) = none := by
  unfold merge at h
  cases h1 : forEach deleteEntry P C.mDelete with
  | none =>
    have hnd : (C.mDelete.map id).Nodup := by
      rw [List.map_id]
      exact sorted_nodup hC.2.2
    obtain ⟨d, hd, hn⟩ := forEach_none deleteEntry id (fun p _ => slotDel p)
      (fun S a S' hb => view_deleteEntry hb) (fun S a hb => deleteEntry_eq_none hb)
      C.mDelete hnd P h1
    refine ⟨d, ?_⟩
    have : (C.view d).d = true := by simp [LedgerDelta.view, setFind, hd]
    simp only [id] at hn
    simp [slotMerge, this, hn]
  | some P1 =>
    simp only [h1] at h
    cases h2 : forEach (fun s n => addEntry s n.2) P1 C.mNew with
    | none =>
      have hkeys := map_key_eq_mapKeys hC.1.2
      have hnd : (C.mNew.map (fun n => n.2.getKey)).Nodup := by
        rw [hkeys]
        exact sorted_nodup hC.1.1
      obtain ⟨n, hmem, hn⟩ := forEach_none
        (fun (s : LedgerDelta) (n : LedgerKey × EntryFrame) => addEntry s n.2)
        (fun n => n.2.getKey) (fun p n => slotAdd p n.2)
        (fun S a S' hb => view_addEntry hb) (fun S a hb => addEntry_eq_none hb)
        C.mNew hnd P1 h2
      obtain ⟨k, e⟩ := n
      have hk : e.getKey = k := hC.1.2 _ hmem
      simp only [hk] at hn
      have hf : mapFind C.mNew k = some e := mapFind_of_mem hC.1.1 hmem
      refine ⟨k, ?_⟩
      have e1 := merge_deletes_view hC h1 k
      have hcn : (C.view k).n = some e := hf
      unfold slotMerge
      rw [e1]
      simp only [hcn, hn]
    | some P2 =>
      simp only [h2] at h
      have hkeys := map_key_eq_mapKeys hC.2.1.2
      have hnd : (C.mMod.map (fun n => n.2.getKey)).Nodup := by
        rw [hkeys]
        exact sorted_nodup hC.2.1.1
      obtain ⟨n, hmem, hn⟩ := forEach_none
        (fun (s : LedgerDelta) (m : LedgerKey × EntryFrame) => modEntry s m.2)
        (fun n => n.2.getKey) (fun p n => slotMod p n.2)
        (fun S a S' hb => view_modEntry hb) (fun S a hb => modEntry_eq_none hb)
        C.mMod hnd P2 h
      obtain ⟨k, e⟩ := n
      have hk : e.getKey = k := hC.2.1.2 _ hmem
      simp only [hk] at hn
      have hf : mapFind C.mMod k = some e := mapFind_of_mem hC.2.1.1 hmem
      refine ⟨k, ?_⟩
      have e1 := merge_deletes_view hC h1 k
      have e2 := merge_news_view hC h2 k
      have hcm : (C.view k).m = some e := hf
      unfold slotMerge
      rw [e1]
      simp only []
      rw [e2]
      simp only [hcm, hn]


/-! ## Call sequences, key by key -/

theorem applyCall_view {S S' : LedgerDelta} {c : Call} (h : applyCall S c = some S')
    (j : LedgerKey) : slotCall j (S.view j) c = some (S'.view j) := by
  unfold slotCall
  by_cases hj : c.key = j
  · subst hj
    simp only [if_true]
    cases c with
    | add e => exact (view_addEntry h).1
    | del k => exact (view_deleteEntry h).1
    | mod e => exact (view_modEntry h).1
  · simp only [hj, if_false, Option.some.injEq]
    have hj' : j ≠ c.key := fun hh => hj hh.symm
    cases c with
    | add e => exact ((view_addEntry h).2 j hj').symm
    | del k => exact ((view_deleteEntry h).2 j hj').symm
    | mod e => exact ((view_modEntry h).2 j hj').symm

theorem replay_view {s : List Call} : ∀ {S F : LedgerDelta}, replay S s = some F →
    ∀ j, slotReplay j (S.view j) s = some (F.view j) := by
  induction s with
  | nil =>
    intro S F h j
    simp [replay, forEach] at h
    subst h
    simp [slotReplay]
  | cons c rest ih =>
    intro S F h j
    simp only [replay, forEach] at h
    cases hb : applyCall S c with
    | none => simp [hb] at h
    | some S1 =>
      simp only [hb] at h
      simp only [slotReplay, applyCall_view hb j]
      exact ih h j

theorem replay_append (S : LedgerDelta) (s1 s2 : List Call) :
    replay S (s1 ++ s2) =
      match replay S s1 with
      | none => none
      | some S1 => replay S1 s2 := by
  induction s1 generalizing S with
  | nil => simp [replay, forEach]
  | cons c rest ih =>
    simp only [replay, List.cons_append, forEach]
    cases hb : applyCall S c with
    | none => simp
    | some S1 =>
      simp only []
      exact ih S1

theorem slotCall_disjoint {j : LedgerKey} {p p' : Slot} {c : Call} (hp : p.Disjoint)
    (h : slotCall j p c = some p') : p'.Disjoint := by
  unfold slotCall at h
  split at h
  · cases c with
    | add e => exact slotAdd_disjoint hp h
    | del k => exact slotDel_disjoint hp h
    | mod e => exact slotMod_disjoint hp h
  · cases h
    exact hp

theorem slotMerge_add {p c f c' f' : Slot} {e : EntryFrame}
    (hp : p.Disjoint) (hc : c.Disjoint) (hm : slotMerge p c = some f)
    (h1 : slotAdd c e = some c') (h2 : slotAdd f e = some f') : slotMerge p c' = some f' := by
  obtain ⟨pn, pm, pd⟩ := p
  obtain ⟨cn, cm, cd⟩ := c
  cases pn <;> cases pm <;> cases pd <;> cases cn <;> cases cm <;> cases cd <;>
    simp [slotMerge, slotAdd, slotDel, slotMod, Slot.Disjoint] at hp hc hm h1 <;>
    subst_vars <;>
    simp [slotMerge, slotAdd, slotDel, slotMod] at h2 ⊢ <;>
    subst_vars <;> rfl

theorem slotMerge_del {p c f c' f' : Slot}
    (hp : p.Disjoint) (hc : c.Disjoint) (hm : slotMerge p c = some f)
    (h1 : slotDel c = some c') (h2 : slotDel f = some f') : slotMerge p c' = some f' := by
  obtain ⟨pn, pm, pd⟩ := p
  obtain ⟨cn, cm, cd⟩ := c
  cases pn <;> cases pm <;> cases pd <;> cases cn <;> cases cm <;> cases cd <;>
    simp [slotMerge, slotAdd, slotDel, slotMod, Slot.Disjoint] at hp hc hm h1 <;>
    subst_vars <;>
    simp [slotMerge, slotAdd, slotDel, slotMod] at h2 ⊢ <;>
    subst_vars <;> rfl

theorem slotMerge_mod {p c f c' f' : Slot} {e : EntryFrame}
    (hp : p.Disjoint) (hc : c.Disjoint) (hm : slotMerge p c = some f)
    (h1 : slotMod c e = some c') (h2 : slotMod f e = some f') : slotMerge p c' = some f' := by
  obtain ⟨pn, pm, pd⟩ := p
  obtain ⟨cn, cm, cd⟩ := c
  cases pn <;> cases pm <;> cases pd <;> cases cn <;> cases cm <;> cases cd <;>
    simp [slotMerge, slotAdd, slotDel, slotMod, Slot.Disjoint] at hp hc hm h1 <;>
    subst_vars <;>
    simp [slotMerge, slotAdd, slotDel, slotMod] at h2 ⊢ <;>
    subst_vars <;> rfl

/-- One more call made both on the child and on the flat state keeps the flat
slot equal to the merge of the parent's slot with the child's. -/
theorem slotMerge_step {j : LedgerKey} {p c f c' f' : Slot} {call : Call}
    (hp : p.Disjoint) (hc : c.Disjoint) (hm : slotMerge p c = some f)
    (h1 : slotCall j c call = some c') (h2 : slotCall j f call = some f') :
    slotMerge p c' = some f' := by
  unfold slotCall at h1 h2
  by_cases hj : call.key = j
  · simp only [hj, if_true] at h1 h2
    cases call with
    | add e => exact slotMerge_add hp hc hm h1 h2
    | del k => exact slotMerge_del hp hc hm h1 h2
    | mod e => exact slotMerge_mod hp hc hm h1 h2
  · simp only [hj, if_false, Option.some.injEq] at h1 h2
    subst h1
    subst h2
    exact hm


theorem slotReplay_merge {j : LedgerKey} {p : Slot} (hp : p.Disjoint) (s : List Call) :
    ∀ {c f c' f' : Slot}, c.Disjoint → slotMerge p c = some f →
      slotReplay j c s = some c' → slotReplay j f s = some f' → slotMerge p c' = some f' := by
  induction s with
  | nil =>
    intro c f c' f' _ hm h1 h2
    simp only [slotReplay, Option.some.injEq] at h1 h2
    subst h1
    subst h2
    exact hm
  | cons call rest ih =>
    intro c f c' f' hc hm h1 h2
    simp only [slotReplay] at h1 h2
    cases hc1 : slotCall j c call with
    | none => simp [hc1] at h1
    | some c1 =>
      cases hf1 : slotCall j f call with
      | none => simp [hf1] at h2
      | some f1 =>
        simp only [hc1] at h1
        simp only [hf1] at h2
        exact ih (slotCall_disjoint hc hc1) (slotMerge_step hp hc hm hc1 hf1) h1 h2

theorem slotMerge_empty (p : Slot) : slotMerge p (Slot.mk none none false) = some p := by
  simp [slotMerge]

theorem fresh_view (j : LedgerKey) : LedgerDelta.fresh.view j = Slot.mk none none false := by
  simp [LedgerDelta.view, LedgerDelta.fresh, mapFind, setFind]

/-- A state is fixed by its slots, so a merge is fixed by `slotMerge` at every key. -/
theorem merge_eq_of_slots {P C F : LedgerDelta} (hP : P.WellFormed) (hC : C.WellFormed)
    (hF : F.WellFormed) (h : ∀ j, slotMerge (P.view j) (C.view j) = some (F.view j)) :
    merge P C = some F := by
  cases hm : merge P C with
  | none =>
    obtain ⟨j, hj⟩ := merge_none hC hm
    rw [h j] at hj
    cases hj
  | some R =>
    have hR : R.WellFormed := merge_wellFormed hP hm
    have : R = F := by
      apply delta_ext hR hF
      intro j
      have h1 := merge_view hC hm j
      rw [h j] at h1
      exact (Option.some.inj h1).symm
    rw [this]

/-- Merging the child recorded from `s` into `P` gives what replaying `s` on `P`
gives, when both replays are legal. -/
theorem merge_replay {P C F : LedgerDelta} {s : List Call} (hW : P.WellFormed)
    (hD : P.Disjoint) (hc : replay LedgerDelta.fresh s = some C) (hf : replay P s = some F) :
    merge P C = some F := by
  apply merge_eq_of_slots hW (replay_wellFormed fresh_wellFormed hc) (replay_wellFormed hW hf)
  intro j
  have h1 := replay_view hc j
  have h2 := replay_view hf j
  rw [fresh_view] at h1
  have hd0 : (Slot.mk none none false).Disjoint := by simp [Slot.Disjoint]
  exact slotReplay_merge ((disjoint_iff_view P).mp hD j) s hd0 (slotMerge_empty _) h1 h2

/-- Merging slot by slot is associative wherever both groupings are defined. -/
theorem slotMerge_assoc {a b c ab l bc r : Slot} (ha : a.Disjoint) (hb : b.Disjoint)
    (hc : c.Disjoint) (h1 : slotMerge a b = some ab) (h2 : slotMerge ab c = some l)
    (h3 : slotMerge b c = some bc) (h4 : slotMerge a bc = some r) : l = r := by
  obtain ⟨an, am, ad⟩ := a
  obtain ⟨bn, bm, bd⟩ := b
  obtain ⟨cn, cm, cd⟩ := c
  cases an <;> cases am <;> cases ad <;> cases bn <;> cases bm <;> cases bd <;>
    simp [slotMerge, slotAdd, slotDel, slotMod, Slot.Disjoint] at ha hb h1 <;>
    subst_vars <;>
    cases cn <;> cases cm <;> cases cd <;>
    simp [slotMerge, slotAdd, slotDel, slotMod, Slot.Disjoint] at hc h2 h3 <;>
    subst_vars <;>
    simp [slotMerge, slotAdd, slotDel, slotMod] at h4 ⊢ <;>
    subst_vars <;> rfl


theorem slotAdd_then_del {p p1 : Slot} {e : EntryFrame} (hp : p.Disjoint)
    (h : slotAdd p e = some p1) : slotDel p1 = some p := by
  obtain ⟨n, m, d⟩ := p
  cases n <;> cases m <;> cases d <;>
    simp [slotAdd, Slot.Disjoint] at hp h <;> subst_vars <;> simp [slotDel]

theorem slotAdd_then_mod {p p1 p2 : Slot} {e1 e2 : EntryFrame} (hp : p.Disjoint)
    (h1 : slotAdd p e1 = some p1) (h2 : slotMod p1 e2 = some p2) :
    p2 = if p.d then Slot.mk none (some e2) false else Slot.mk (some e2) none false := by
  obtain ⟨n, m, d⟩ := p
  cases n <;> cases m <;> cases d <;>
    simp [slotAdd, Slot.Disjoint] at hp h1 <;> subst_vars <;>
    simp [slotMod] at h2 ⊢ <;> subst_vars <;> rfl

/-- A list-level test for the representation invariant, for concrete states. -/
theorem wellFormed_of_lists (S : LedgerDelta)
    (h1 : (S.mNew.map Prod.fst).Pairwise (· < ·)) (h2 : ∀ p ∈ S.mNew, p.2.mKey = p.1)
    (h3 : (S.mMod.map Prod.fst).Pairwise (· < ·)) (h4 : ∀ p ∈ S.mMod, p.2.mKey = p.1)
    (h5 : S.mDelete.Pairwise (· < ·)) : S.WellFormed :=
  ⟨⟨h1, h2⟩, ⟨h3, h4⟩, h5⟩


/-! ## Repeated calls on one key -/

theorem mapAssign_mapAssign (m : KeyEntryMap) (k : LedgerKey) (e1 e2 : EntryFrame) :
    mapAssign (mapAssign m k e1) k e2 = mapAssign m k e2 := by
  induction m with
  | nil => simp [mapAssign]
  | cons q rest ih =>
    obtain ⟨k', e'⟩ := q
    by_cases h1 : k < k'
    · simp [mapAssign, h1]
    · by_cases h2 : k = k'
      · subst h2
        simp [mapAssign]
      · simp [mapAssign, h1, h2, ih]

theorem slotAdd_twice {p p1 : Slot} {e1 e2 : EntryFrame} (h : slotAdd p e1 = some p1) :
    slotAdd p1 e2 = none := by
  obtain ⟨n, m, d⟩ := p
  cases n <;> cases m <;> cases d <;>
    simp [slotAdd] at h <;> subst_vars <;> simp [slotAdd]


/-! ## Serialization -/

theorem foldl_push_eq {α β : Type} (f : α → β) (l : List α) :
    ∀ acc : List β, l.foldl (fun tm k => tm ++ [f k]) acc = acc ++ l.map f := by
  induction l with
  | nil => intro acc; simp
  | cons a rest ih =>
    intro acc
    simp only [List.foldl_cons, List.map_cons]
    rw [ih]
    simp

theorem getTransactionMeta_eq (S : LedgerDelta) :
    getTransactionMeta S =
      S.mNew.map (fun k => CLFEntryBase.liveEntry k.2.mEntry) ++
        S.mMod.map (fun k => CLFEntryBase.liveEntry k.2.mEntry) ++
        S.mDelete.map CLFEntryBase.deadEntry := by
  unfold getTransactionMeta
  simp only [foldl_push_eq, List.nil_append]

theorem pairwise_of_all_live (l : List CLFEntryBase) (h : ∀ a ∈ l, a.isDead = false) :
    l.Pairwise (fun a b => a.isDead = true → b.isDead = true) := by
  induction l with
  | nil => exact List.Pairwise.nil
  | cons a rest ih =>
    refine List.pairwise_cons.mpr ⟨?_, ih (fun b hb => h b (List.mem_cons_of_mem a hb))⟩
    intro b _ ha
    rw [h a (List.mem_cons_self a rest)] at ha
    cases ha

theorem pairwise_of_all_dead (l : List CLFEntryBase) (h : ∀ a ∈ l, a.isDead = true) :
    l.Pairwise (fun a b => a.isDead = true → b.isDead = true) := by
  induction l with
  | nil => exact List.Pairwise.nil
  | cons a rest ih =>
    refine List.pairwise_cons.mpr ⟨?_, ih (fun b hb => h b (List.mem_cons_of_mem a hb))⟩
    intro b hb _
    exact h b (List.mem_cons_of_mem a hb)

/-- The serializer imposes no order of its own: the records follow the order in
which the containers are iterated.  Two `mNew` containers holding the same keys
with the same values but iterated in different orders give the same records in
different orders. -/
theorem getTransactionMeta_follows_iteration :
    (∀ j, mapFind [(1, EntryFrame.mk 1 10), (2, EntryFrame.mk 2 20)] j
      = mapFind [(2, EntryFrame.mk 2 20), (1, EntryFrame.mk 1 10)] j) ∧
    getTransactionMeta (LedgerDelta.mk [(1, ⟨1, 10⟩), (2, ⟨2, 20⟩)] [] [])
      = [CLFEntryBase.liveEntry 10, CLFEntryBase.liveEntry 20] ∧
    getTransactionMeta (LedgerDelta.mk [(2, ⟨2, 20⟩), (1, ⟨1, 10⟩)] [] [])
      = [CLFEntryBase.liveEntry 20, CLFEntryBase.liveEntry 10] := by
  refine ⟨?_, by decide, by decide⟩
  intro j
  by_cases h1 : 1 = j
  · subst h1
    decide
  · by_cases h2 : 2 = j
    · subst h2
      decide
    · simp [mapFind, h1, h2]

/-! ## Merge as a call sequence, and calls on distinct keys -/

theorem forEach_append {α : Type} (body : LedgerDelta → α → Option LedgerDelta)
    (l1 l2 : List α) : ∀ S, forEach body S (l1 ++ l2) =
      match forEach body S l1 with
      | none => none
      | some S1 => forEach body S1 l2 := by
  induction l1 with
  | nil => intro S; simp [forEach]
  | cons a rest ih =>
    intro S
    simp only [List.cons_append, forEach]
    cases hb : body S a with
    | none => simp
    | some S1 =>
      simp only []
      exact ih S1

theorem forEach_map {α β : Type} (body : LedgerDelta → β → Option LedgerDelta) (f : α → β)
    (l : List α) : ∀ S, forEach body S (l.map f) = forEach (fun s a => body s (f a)) S l := by
  induction l with
  | nil => intro S; simp [forEach]
  | cons a rest ih =>
    intro S
    simp only [List.map_cons, forEach]
    cases hb : body S (f a) with
    | none => simp
    | some S1 =>
      simp only []
      exact ih S1

theorem merge_eq_replay (P C : LedgerDelta) : merge P C = replay P (mergeCalls C) := by
  unfold merge replay mergeCalls
  simp only [forEach_append, forEach_map, applyCall]
  cases forEach deleteEntry P C.mDelete with
  | none => rfl
  | some S1 => simp only []

theorem applyCall_frame {S S' : LedgerDelta} {c : Call} (h : applyCall S c = some S') :
    slotCall c.key (S.view c.key) c = some (S'.view c.key) ∧
      ∀ j, j ≠ c.key → S'.view j = S.view j := by
  refine ⟨applyCall_view h c.key, ?_⟩
  intro j hj
  have := applyCall_view h j
  have hne : ¬ c.key = j := fun hh => hj hh.symm
  simp only [slotCall, hne, if_false, Option.some.injEq] at this
  exact this.symm

theorem applyCall_eq_none {S : LedgerDelta} {c : Call} (h : applyCall S c = none) :
    slotCall c.key (S.view c.key) c = none := by
  cases c with
  | add e => simpa [slotCall] using addEntry_eq_none h
  | del k => simpa [slotCall] using deleteEntry_eq_none h
  | mod e => simpa [slotCall] using modEntry_eq_none h

/-- Replaying calls about distinct keys gives the same outcome in every order. -/
theorem replay_perm {P : LedgerDelta} (hP : P.WellFormed) {l l' : List Call}
    (hnd : (l.map Call.key).Nodup) (hp : l'.Perm l) : replay P l' = replay P l := by
  have hnd' : (l'.map Call.key).Nodup := (hp.map Call.key).nodup_iff.mpr hnd
  have key : ∀ (l1 l2 : List Call), (l1.map Call.key).Nodup → (l2.map Call.key).Nodup →
      l1.Perm l2 → ∀ R, replay P l1 = some R → replay P l2 = some R := by
    intro l1 l2 n1 n2 hperm R h1
    obtain ⟨v1, w1⟩ := forEach_view applyCall Call.key (fun p c => slotCall c.key p c)
      (fun S a S' hb => applyCall_frame hb) l1 n1 P R h1
    cases h2 : replay P l2 with
    | none =>
      obtain ⟨c, hc, hn⟩ := forEach_none applyCall Call.key (fun p c => slotCall c.key p c)
        (fun S a S' hb => applyCall_frame hb) (fun S a hb => applyCall_eq_none hb) l2 n2 P h2
      have := v1 c (hperm.mem_iff.mpr hc)
      simp only [] at hn this
      rw [hn] at this
      cases this
    | some R' =>
      obtain ⟨v2, w2⟩ := forEach_view applyCall Call.key (fun p c => slotCall c.key p c)
        (fun S a S' hb => applyCall_frame hb) l2 n2 P R' h2
      have : R' = R := by
        apply delta_ext (replay_wellFormed hP h2) (replay_wellFormed hP h1)
        intro j
        by_cases hj : j ∈ l1.map Call.key
        · obtain ⟨c, hc, rfl⟩ := List.mem_map.mp hj
          have a1 := v1 c hc
          have a2 := v2 c (hperm.mem_iff.mp hc)
          simp only [] at a1 a2
          rw [a1] at a2
          exact (Option.some.inj a2).symm
        · have hj2 : j ∉ l2.map Call.key := fun hh => hj ((hperm.map Call.key).mem_iff.mpr hh)
          rw [w1 j hj, w2 j hj2]
      rw [this]
  cases h : replay P l with
  | some R => exact key l l' hnd hnd' hp.symm R h
  | none =>
    cases h' : replay P l' with
    | none => rfl
    | some R' =>
      rw [key l' l hnd' hnd hp R' h'] at h
      cases h

theorem mergeCalls_keys (C : LedgerDelta) (hC : C.WellFormed) :
    (mergeCalls C).map Call.key = C.mDelete ++ mapKeys C.mNew ++ mapKeys C.mMod := by
  unfold mergeCalls
  rw [List.map_append, List.map_append, List.map_map, List.map_map, List.map_map]
  rw [← map_key_eq_mapKeys hC.1.2, ← map_key_eq_mapKeys hC.2.1.2]
  congr 1
  congr 1
  simp [Function.comp_def, Call.key]

theorem mergeCalls_nodup (C : LedgerDelta) (hC : C.WellFormed) (dC : C.Disjoint) :
    ((mergeCalls C).map Call.key).Nodup := by
  rw [mergeCalls_keys C hC]
  have hd := sorted_nodup hC.2.2
  have hn := sorted_nodup hC.1.1
  have hm := sorted_nodup hC.2.1.1
  rw [List.nodup_append]
  refine ⟨?_, hm, ?_⟩
  · rw [List.nodup_append]
    refine ⟨hd, hn, ?_⟩
    intro k hk1 hk2
    exact (dC k).2.1 ⟨(mapFind_isSome_iff _ _).mpr hk2, (setFind_iff _ _).mpr hk1⟩
  · intro k hk1 hk2
    rcases List.mem_append.mp hk1 with h | h
    · exact (dC k).2.2 ⟨(mapFind_isSome_iff _ _).mpr hk2, (setFind_iff _ _).mpr h⟩
    · exact (dC k).1 ⟨(mapFind_isSome_iff _ _).mpr h, (mapFind_isSome_iff _ _).mpr hk2⟩


/-! ## The disjointness invariant -/

/-- C1. Disjointness invariant: the fresh delta has every key in at most one of
`mNew`, `mMod`, `mDelete`, and from every state `S` with that property each
call of `addEntry`, `deleteEntry`, `modEntry` or `merge` (with a child that has
the property too) that completes without a failed assertion leaves a state with
that property. -/
theorem disjoint_invariant (S : LedgerDelta) (hS : S.Disjoint) :
    LedgerDelta.fresh.Disjoint ∧
    (∀ e S', addEntry S e = some S' → S'.Disjoint) ∧
    (∀ k S', deleteEntry S k = some S' → S'.Disjoint) ∧
    (∀ e S', modEntry S e = some S' → S'.Disjoint) ∧
    (∀ C S', C.Disjoint → merge S C = some S' → S'.Disjoint) :=
  ⟨fresh_disjoint, fun _ _ h => addEntry_disjoint hS h, fun _ _ h => deleteEntry_disjoint hS h,
    fun _ _ h => modEntry_disjoint hS h, fun _ _ _ h => merge_disjoint hS h⟩

/-- Witness for C1: the invariant at the state `mNew = {1 ↦ 10}`, `mMod = {2 ↦ 20}`,
`mDelete = {3}`, from which a merge of the child `mMod = {1 ↦ 11}`, `mDelete = {2}`
succeeds and gives `mNew = {1 ↦ 11}`, `mDelete = {2, 3}`. -/
theorem disjoint_invariant_witness :
    (LedgerDelta.mk [(1, ⟨1, 10⟩)] [(2, ⟨2, 20⟩)] [3]).Disjoint ∧
    merge (LedgerDelta.mk [(1, ⟨1, 10⟩)] [(2, ⟨2, 20⟩)] [3]) (LedgerDelta.mk [] [(1, ⟨1, 11⟩)] [2])
      = some (LedgerDelta.mk [(1, ⟨1, 11⟩)] [] [2, 3]) ∧
    (LedgerDelta.mk [(1, ⟨1, 11⟩)] [] [2, 3]).Disjoint :=
  have h0 : (LedgerDelta.mk [(1, ⟨1, 10⟩)] [(2, ⟨2, 20⟩)] [3]).Disjoint :=
    disjoint_of_keys _ (by decide) (by decide)
  have h1 : (LedgerDelta.mk [] [(1, ⟨1, 11⟩)] [2]).Disjoint :=
    disjoint_of_keys _ (by decide) (by decide)
  have hm : merge (LedgerDelta.mk [(1, ⟨1, 10⟩)] [(2, ⟨2, 20⟩)] [3])
      (LedgerDelta.mk [] [(1, ⟨1, 11⟩)] [2]) = some (LedgerDelta.mk [(1, ⟨1, 11⟩)] [] [2, 3]) := by
    decide
  ⟨h0, hm, (disjoint_invariant _ h0).2.2.2.2 _ _ h1 hm⟩


/-! ## Merge flattening and associativity -/

/-- C2 (as stated, refuted). The flat replay of `addEntry(1 ↦ 10)` followed by
`deleteEntry(1)`, `deleteEntry(1)` on a fresh delta raises no violation (it leaves
`mDelete = {1}`), the parent records `addEntry(1 ↦ 10)`, and recording
`deleteEntry(1)`, `deleteEntry(1)` in a fresh child fails on the second call
(double delete), so no child exists to merge. -/
theorem flattening_child_replay_fails :
    replay LedgerDelta.fresh ([Call.add ⟨1, 10⟩] ++ [Call.del 1, Call.del 1])
      = some (LedgerDelta.mk [] [] [1]) ∧
    replay LedgerDelta.fresh [Call.add ⟨1, 10⟩] = some (LedgerDelta.mk [(1, ⟨1, 10⟩)] [] []) ∧
    replay LedgerDelta.fresh [Call.del 1, Call.del 1] = none := by
  decide

/-- C2 (amended). For every two call sequences `s1`, `s2` such that replaying `s1`
followed by `s2` on one fresh flat delta raises no violation and recording `s2`
in a fresh child raises none either, recording `s1` in a fresh parent succeeds,
and merging the child into that parent raises no violation and leaves the parent
with the same `mNew`, `mMod` and `mDelete` as the flat replay. -/
theorem flattening_fresh (s1 s2 : List Call) (F C : LedgerDelta)
    (hflat : replay LedgerDelta.fresh (s1 ++ s2) = some F)
    (hchild : replay LedgerDelta.fresh s2 = some C) :
    ∃ P R, replay LedgerDelta.fresh s1 = some P ∧ merge P C = some R ∧
      R.mNew = F.mNew ∧ R.mMod = F.mMod ∧ R.mDelete = F.mDelete := by
  rw [replay_append] at hflat
  cases hP : replay LedgerDelta.fresh s1 with
  | none => simp [hP] at hflat
  | some P =>
    simp only [hP] at hflat
    have hW : P.WellFormed := replay_wellFormed fresh_wellFormed hP
    have hD : P.Disjoint := replay_disjoint fresh_disjoint hP
    exact ⟨P, F, rfl, merge_replay hW hD hchild hflat, rfl, rfl, rfl⟩

/-- Witness for C2 (amended): the parent records create 1, update 2; the child
records delete 1, delete 2, create 2. -/
theorem flattening_fresh_witness :
    replay LedgerDelta.fresh
        ([Call.add ⟨1, 10⟩, Call.mod ⟨2, 20⟩] ++ [Call.del 1, Call.del 2, Call.add ⟨2, 21⟩])
      = some (LedgerDelta.mk [] [(2, ⟨2, 21⟩)] []) ∧
    replay LedgerDelta.fresh [Call.del 1, Call.del 2, Call.add ⟨2, 21⟩]
      = some (LedgerDelta.mk [] [(2, ⟨2, 21⟩)] [1]) ∧
    ∃ P R, replay LedgerDelta.fresh [Call.add ⟨1, 10⟩, Call.mod ⟨2, 20⟩] = some P ∧
      merge P (LedgerDelta.mk [] [(2, ⟨2, 21⟩)] [1]) = some R ∧
      R.mNew = [] ∧ R.mMod = [(2, ⟨2, 21⟩)] ∧ R.mDelete = [] :=
  ⟨by decide, by decide,
    flattening_fresh [Call.add ⟨1, 10⟩, Call.mod ⟨2, 20⟩]
      [Call.del 1, Call.del 2, Call.add ⟨2, 21⟩] (LedgerDelta.mk [] [(2, ⟨2, 21⟩)] [])
      (LedgerDelta.mk [] [(2, ⟨2, 21⟩)] [1]) (by decide) (by decide)⟩

/-- C3. Merge flattening when both replays are legal: for every well-formed parent
`P` satisfying the disjointness invariant and every call sequence `s`, if `s`
replayed on a fresh child succeeds (giving `C`) and `s` replayed directly on `P`
succeeds (giving `F`), then merging `C` into `P` raises no violation and leaves
`mNew`, `mMod` and `mDelete` equal to those of `F`. -/
theorem merge_flattening (P C F : LedgerDelta) (s : List Call) (hW : P.WellFormed)
    (hD : P.Disjoint) (hchild : replay LedgerDelta.fresh s = some C)
    (hflat : replay P s = some F) :
    ∃ R, merge P C = some R ∧ R.mNew = F.mNew ∧ R.mMod = F.mMod ∧ R.mDelete = F.mDelete :=
  ⟨F, merge_replay hW hD hchild hflat, rfl, rfl, rfl⟩

/-- Witness for C3: the parent `mNew = {1 ↦ 10}`, `mMod = {2 ↦ 20}`, `mDelete = {3}`
and the calls delete 1, create 3, update 2, create 1. -/
theorem merge_flattening_witness :
    (LedgerDelta.mk [(1, ⟨1, 10⟩)] [(2, ⟨2, 20⟩)] [3]).WellFormed ∧
    (LedgerDelta.mk [(1, ⟨1, 10⟩)] [(2, ⟨2, 20⟩)] [3]).Disjoint ∧
    replay LedgerDelta.fresh [Call.del 1, Call.add ⟨3, 30⟩, Call.mod ⟨2, 21⟩, Call.add ⟨1, 12⟩]
      = some (LedgerDelta.mk [(3, ⟨3, 30⟩)] [(1, ⟨1, 12⟩), (2, ⟨2, 21⟩)] []) ∧
    replay (LedgerDelta.mk [(1, ⟨1, 10⟩)] [(2, ⟨2, 20⟩)] [3])
        [Call.del 1, Call.add ⟨3, 30⟩, Call.mod ⟨2, 21⟩, Call.add ⟨1, 12⟩]
      = some (LedgerDelta.mk [(1, ⟨1, 12⟩)] [(2, ⟨2, 21⟩), (3, ⟨3, 30⟩)] []) ∧
    ∃ R, merge (LedgerDelta.mk [(1, ⟨1, 10⟩)] [(2, ⟨2, 20⟩)] [3])
        (LedgerDelta.mk [(3, ⟨3, 30⟩)] [(1, ⟨1, 12⟩), (2, ⟨2, 21⟩)] []) = some R ∧
      R.mNew = [(1, ⟨1, 12⟩)] ∧ R.mMod = [(2, ⟨2, 21⟩), (3, ⟨3, 30⟩)] ∧ R.mDelete = [] :=
  have hW : (LedgerDelta.mk [(1, ⟨1, 10⟩)] [(2, ⟨2, 20⟩)] [3]).WellFormed :=
    wellFormed_of_lists _ (by decide) (by decide) (by decide) (by decide) (by decide)
  have hD : (LedgerDelta.mk [(1, ⟨1, 10⟩)] [(2, ⟨2, 20⟩)] [3]).Disjoint :=
    disjoint_of_keys _ (by decide) (by decide)
  ⟨hW, hD, by decide, by decide,
    merge_flattening (LedgerDelta.mk [(1, ⟨1, 10⟩)] [(2, ⟨2, 20⟩)] [3])
      (LedgerDelta.mk [(3, ⟨3, 30⟩)] [(1, ⟨1, 12⟩), (2, ⟨2, 21⟩)] [])
      (LedgerDelta.mk [(1, ⟨1, 12⟩)] [(2, ⟨2, 21⟩), (3, ⟨3, 30⟩)] [])
      [Call.del 1, Call.add ⟨3, 30⟩, Call.mod ⟨2, 21⟩, Call.add ⟨1, 12⟩]
      hW hD (by decide) (by decide)⟩

/-- C4. Merge is associative: for all well-formed deltas `A`, `B`, `C` that each
satisfy the disjointness invariant, merging `B` into `A` and then `C` into the
result leaves the same three containers as merging `C` into `B` and then that
`B` into `A`, whenever both groupings complete without a violation. -/
theorem merge_assoc (A B C AB L BC R : LedgerDelta)
    (hA : A.WellFormed) (hB : B.WellFormed) (hC : C.WellFormed)
    (dA : A.Disjoint) (dB : B.Disjoint) (dC : C.Disjoint)
    (h1 : merge A B = some AB) (h2 : merge AB C = some L)
    (h3 : merge B C = some BC) (h4 : merge A BC = some R) : L = R := by
  have hAB : AB.WellFormed := merge_wellFormed hA h1
  have hBC : BC.WellFormed := merge_wellFormed hB h3
  apply delta_ext (merge_wellFormed hAB h2) (merge_wellFormed hA h4)
  intro j
  exact slotMerge_assoc ((disjoint_iff_view A).mp dA j) ((disjoint_iff_view B).mp dB j)
    ((disjoint_iff_view C).mp dC j) (merge_view hB h1 j) (merge_view hC h2 j)
    (merge_view hC h3 j) (merge_view hBC h4 j)

/-- Witness for C4: three deltas over the keys 1, 2, 3, each key in a different
container of each delta; both groupings give `mMod = {2 ↦ 22, 3 ↦ 31}`. -/
theorem merge_assoc_witness :
    merge (LedgerDelta.mk [(1, ⟨1, 10⟩)] [(2, ⟨2, 20⟩)] [3])
        (LedgerDelta.mk [(3, ⟨3, 30⟩)] [(1, ⟨1, 11⟩)] [2])
      = some (LedgerDelta.mk [(1, ⟨1, 11⟩)] [(3, ⟨3, 30⟩)] [2]) ∧
    merge (LedgerDelta.mk [(1, ⟨1, 11⟩)] [(3, ⟨3, 30⟩)] [2])
        (LedgerDelta.mk [(2, ⟨2, 22⟩)] [(3, ⟨3, 31⟩)] [1])
      = some (LedgerDelta.mk [] [(2, ⟨2, 22⟩), (3, ⟨3, 31⟩)] []) ∧
    merge (LedgerDelta.mk [(3, ⟨3, 30⟩)] [(1, ⟨1, 11⟩)] [2])
        (LedgerDelta.mk [(2, ⟨2, 22⟩)] [(3, ⟨3, 31⟩)] [1])
      = some (LedgerDelta.mk [(3, ⟨3, 31⟩)] [(2, ⟨2, 22⟩)] [1]) ∧
    merge (LedgerDelta.mk [(1, ⟨1, 10⟩)] [(2, ⟨2, 20⟩)] [3])
        (LedgerDelta.mk [(3, ⟨3, 31⟩)] [(2, ⟨2, 22⟩)] [1])
      = some (LedgerDelta.mk [] [(2, ⟨2, 22⟩), (3, ⟨3, 31⟩)] []) ∧
    LedgerDelta.mk [] [(2, ⟨2, 22⟩), (3, ⟨3, 31⟩)] []
      = LedgerDelta.mk [] [(2, ⟨2, 22⟩), (3, ⟨3, 31⟩)] [] :=
  ⟨by decide, by decide, by decide, by decide,
    merge_assoc (LedgerDelta.mk [(1, ⟨1, 10⟩)] [(2, ⟨2, 20⟩)] [3])
      (LedgerDelta.mk [(3, ⟨3, 30⟩)] [(1, ⟨1, 11⟩)] [2])
      (LedgerDelta.mk [(2, ⟨2, 22⟩)] [(3, ⟨3, 31⟩)] [1])
      (LedgerDelta.mk [(1, ⟨1, 11⟩)] [(3, ⟨3, 30⟩)] [2])
      (LedgerDelta.mk [] [(2, ⟨2, 22⟩), (3, ⟨3, 31⟩)] [])
      (LedgerDelta.mk [(3, ⟨3, 31⟩)] [(2, ⟨2, 22⟩)] [1])
      (LedgerDelta.mk [] [(2, ⟨2, 22⟩), (3, ⟨3, 31⟩)] [])
      (wellFormed_of_lists _ (by decide) (by decide) (by decide) (by decide) (by decide))
      (wellFormed_of_lists _ (by decide) (by decide) (by decide) (by decide) (by decide))
      (wellFormed_of_lists _ (by decide) (by decide) (by decide) (by decide) (by decide))
      (disjoint_of_keys _ (by decide) (by decide))
      (disjoint_of_keys _ (by decide) (by decide))
      (disjoint_of_keys _ (by decide) (by decide))
      (by decide) (by decide) (by decide) (by decide)⟩


/-! ## Contracts of the recording calls -/

/-- C5. Contract of `addEntry` for every state and entry `e` with key `k`: when `k`
is in `mDelete` the call succeeds, `k` leaves `mDelete` (other keys keep their
membership), `mMod` maps `k` to `e` (other keys keep their value) and `mNew` is
untouched; otherwise the call fails exactly when `k` is in `mNew` or in `mMod`,
and when it does not fail `mNew` maps `k` to `e` (other keys keep their value)
while `mMod` and `mDelete` are as they were. -/
theorem addEntry_contract (S : LedgerDelta) (e : EntryFrame) :
    (S.inDelete e.getKey →
      ∃ S', addEntry S e = some S' ∧
        setFind S'.mDelete e.getKey = false ∧
        (∀ j, j ≠ e.getKey → setFind S'.mDelete j = setFind S.mDelete j) ∧
        mapFind S'.mMod e.getKey = some e ∧
        (∀ j, j ≠ e.getKey → mapFind S'.mMod j = mapFind S.mMod j) ∧
        S'.mNew = S.mNew) ∧
    (¬ S.inDelete e.getKey →
      (addEntry S e = none ↔ (S.inNew e.getKey ∨ S.inMod e.getKey)) ∧
      ∀ S', addEntry S e = some S' →
        mapFind S'.mNew e.getKey = some e ∧
        (∀ j, j ≠ e.getKey → mapFind S'.mNew j = mapFind S.mNew j) ∧
        S'.mMod = S.mMod ∧ S'.mDelete = S.mDelete) := by
  constructor
  · intro hd
    have hd' : setFind S.mDelete e.getKey = true := hd
    refine ⟨LedgerDelta.mk S.mNew (mapAssign S.mMod e.getKey e) (setErase S.mDelete e.getKey),
      ?_, ?_, ?_, ?_, ?_, rfl⟩
    · simp [addEntry, hd']
    · simp [setFind_setErase]
    · intro j hj
      simp [setFind_setErase, hj]
    · simp [mapFind_mapAssign]
    · intro j hj
      simp [mapFind_mapAssign, hj]
  · intro hd
    have hd' : setFind S.mDelete e.getKey = false := by
      simpa [LedgerDelta.inDelete] using hd
    constructor
    · unfold LedgerDelta.inNew LedgerDelta.inMod
      cases hn : (mapFind S.mNew e.getKey).isSome <;>
        cases hm : (mapFind S.mMod e.getKey).isSome <;>
        simp [addEntry, hd', hn, hm]
    · intro S' h
      cases hn : (mapFind S.mNew e.getKey).isSome <;>
        cases hm : (mapFind S.mMod e.getKey).isSome <;>
        simp [addEntry, hd', hn, hm] at h
      subst h
      refine ⟨?_, ?_, rfl, rfl⟩
      · simp [mapFind_mapAssign]
      · intro j hj
        simp [mapFind_mapAssign, hj]

/-- Witness for C5: in the state `mNew = {1 ↦ 10}`, `mMod = {2 ↦ 20}`, `mDelete = {3}`,
creating key 3 (deleted) succeeds and puts it in `mMod`; creating key 1 (already
new) fails; creating key 4 succeeds and puts it in `mNew`. -/
theorem addEntry_contract_witness :
    (∃ S', addEntry (LedgerDelta.mk [(1, ⟨1, 10⟩)] [(2, ⟨2, 20⟩)] [3]) ⟨3, 30⟩ = some S' ∧
      mapFind S'.mMod 3 = some ⟨3, 30⟩ ∧ setFind S'.mDelete 3 = false) ∧
    addEntry (LedgerDelta.mk [(1, ⟨1, 10⟩)] [(2, ⟨2, 20⟩)] [3]) ⟨1, 11⟩ = none ∧
    mapFind (LedgerDelta.mk [(1, ⟨1, 10⟩), (4, ⟨4, 40⟩)] [(2, ⟨2, 20⟩)] [3]).mNew 4
      = some ⟨4, 40⟩ := by
  refine ⟨?_, ?_, ?_⟩
  · obtain ⟨S', h1, h2, _, h4, _, _⟩ :=
      (addEntry_contract (LedgerDelta.mk [(1, ⟨1, 10⟩)] [(2, ⟨2, 20⟩)] [3]) ⟨3, 30⟩).1
        (by unfold LedgerDelta.inDelete; decide)
    exact ⟨S', h1, h4, h2⟩
  · exact ((addEntry_contract (LedgerDelta.mk [(1, ⟨1, 10⟩)] [(2, ⟨2, 20⟩)] [3]) ⟨1, 11⟩).2
      (by unfold LedgerDelta.inDelete; decide)).1.mpr
      (Or.inl (by unfold LedgerDelta.inNew; decide))
  · exact (((addEntry_contract (LedgerDelta.mk [(1, ⟨1, 10⟩)] [(2, ⟨2, 20⟩)] [3]) ⟨4, 40⟩).2
      (by unfold LedgerDelta.inDelete; decide)).2
      (LedgerDelta.mk [(1, ⟨1, 10⟩), (4, ⟨4, 40⟩)] [(2, ⟨2, 20⟩)] [3]) (by decide)).1

/-- C6. Contract of `deleteEntry` for every state and key `k`: when `k` is in `mNew`
the call succeeds and only removes `k` from `mNew` (other keys keep their value,
`mMod` and `mDelete` untouched); otherwise the call fails exactly when `k` is in
`mDelete`, and when it does not fail `k` is absent from `mMod` (other keys keep
their value), `k` is in `mDelete` (other keys keep their membership) and `mNew`
is as it was. -/
theorem deleteEntry_contract (S : LedgerDelta) (k : LedgerKey) :
    (S.inNew k →
      ∃ S', deleteEntry S k = some S' ∧
        mapFind S'.mNew k = none ∧
        (∀ j, j ≠ k → mapFind S'.mNew j = mapFind S.mNew j) ∧
        S'.mMod = S.mMod ∧ S'.mDelete = S.mDelete) ∧
    (¬ S.inNew k →
      (deleteEntry S k = none ↔ S.inDelete k) ∧
      ∀ S', deleteEntry S k = some S' →
        mapFind S'.mMod k = none ∧
        (∀ j, j ≠ k → mapFind S'.mMod j = mapFind S.mMod j) ∧
        setFind S'.mDelete k = true ∧
        (∀ j, j ≠ k → setFind S'.mDelete j = setFind S.mDelete j) ∧
        S'.mNew = S.mNew) := by
  constructor
  · intro hn
    have hn' : (mapFind S.mNew k).isSome = true := hn
    refine ⟨LedgerDelta.mk (mapErase S.mNew k) S.mMod S.mDelete, ?_, ?_, ?_, rfl, rfl⟩
    · simp [deleteEntry, hn']
    · simp [mapFind_mapErase]
    · intro j hj
      simp [mapFind_mapErase, hj]
  · intro hn
    have hn' : (mapFind S.mNew k).isSome = false := by
      simpa [LedgerDelta.inNew] using hn
    constructor
    · unfold LedgerDelta.inDelete
      cases hd : setFind S.mDelete k <;> simp [deleteEntry, hn', hd]
    · intro S' h
      cases hd : setFind S.mDelete k <;> simp [deleteEntry, hn', hd] at h
      subst h
      refine ⟨?_, ?_, ?_, ?_, rfl⟩
      · simp [mapFind_mapErase]
      · intro j hj
        simp [mapFind_mapErase, hj]
      · simp [setFind_setInsert]
      · intro j hj
        simp [setFind_setInsert, hj]

/-- Witness for C6: in the state `mNew = {1 ↦ 10}`, `mMod = {2 ↦ 20}`, `mDelete = {3}`,
deleting key 1 (new) succeeds and removes it from `mNew`; deleting key 3 (already
deleted) fails; deleting key 2 succeeds, drops it from `mMod` and puts it in
`mDelete`. -/
theorem deleteEntry_contract_witness :
    (∃ S', deleteEntry (LedgerDelta.mk [(1, ⟨1, 10⟩)] [(2, ⟨2, 20⟩)] [3]) 1 = some S' ∧
      mapFind S'.mNew 1 = none ∧ S'.mDelete = [3]) ∧
    deleteEntry (LedgerDelta.mk [(1, ⟨1, 10⟩)] [(2, ⟨2, 20⟩)] [3]) 3 = none ∧
    (mapFind (LedgerDelta.mk [(1, ⟨1, 10⟩)] [] [2, 3]).mMod 2 = none ∧
      setFind (LedgerDelta.mk [(1, ⟨1, 10⟩)] [] [2, 3]).mDelete 2 = true) := by
  refine ⟨?_, ?_, ?_⟩
  · obtain ⟨S', h1, h2, _, _, h5⟩ :=
      (deleteEntry_contract (LedgerDelta.mk [(1, ⟨1, 10⟩)] [(2, ⟨2, 20⟩)] [3]) 1).1
        (by unfold LedgerDelta.inNew; decide)
    exact ⟨S', h1, h2, h5⟩
  · exact ((deleteEntry_contract (LedgerDelta.mk [(1, ⟨1, 10⟩)] [(2, ⟨2, 20⟩)] [3]) 3).2
      (by unfold LedgerDelta.inNew; decide)).1.mpr (by unfold LedgerDelta.inDelete; decide)
  · have h := ((deleteEntry_contract (LedgerDelta.mk [(1, ⟨1, 10⟩)] [(2, ⟨2, 20⟩)] [3]) 2).2
      (by unfold LedgerDelta.inNew; decide)).2
      (LedgerDelta.mk [(1, ⟨1, 10⟩)] [] [2, 3]) (by decide)
    exact ⟨h.1, h.2.2.1⟩

/-- C7. Contract of `modEntry` for every state and entry `e` with key `k`: when `k`
is in `mMod` its value there is replaced by `e`; else when `k` is in `mNew` its
value there is replaced by `e` and `k` is not added to `mMod`; else the call
fails exactly when `k` is in `mDelete`, and when it does not fail `mMod` maps
`k` to `e`.  In every successful case other keys keep their value in the
container written, and the two other containers are as they were. -/
theorem modEntry_contract (S : LedgerDelta) (e : EntryFrame) :
    (S.inMod e.getKey →
      ∃ S', modEntry S e = some S' ∧
        mapFind S'.mMod e.getKey = some e ∧
        (∀ j, j ≠ e.getKey → mapFind S'.mMod j = mapFind S.mMod j) ∧
        S'.mNew = S.mNew ∧ S'.mDelete = S.mDelete) ∧
    (¬ S.inMod e.getKey → S.inNew e.getKey →
      ∃ S', modEntry S e = some S' ∧
        mapFind S'.mNew e.getKey = some e ∧
        (∀ j, j ≠ e.getKey → mapFind S'.mNew j = mapFind S.mNew j) ∧
        S'.mMod = S.mMod ∧ mapFind S'.mMod e.getKey = none ∧ S'.mDelete = S.mDelete) ∧
    (¬ S.inMod e.getKey → ¬ S.inNew e.getKey →
      (modEntry S e = none ↔ S.inDelete e.getKey) ∧
      ∀ S', modEntry S e = some S' →
        mapFind S'.mMod e.getKey = some e ∧
        (∀ j, j ≠ e.getKey → mapFind S'.mMod j = mapFind S.mMod j) ∧
        S'.mNew = S.mNew ∧ S'.mDelete = S.mDelete) := by
  refine ⟨?_, ?_, ?_⟩
  · intro hm
    have hm' : (mapFind S.mMod e.getKey).isSome = true := hm
    refine ⟨LedgerDelta.mk S.mNew (mapAssign S.mMod e.getKey e) S.mDelete, ?_, ?_, ?_, rfl, rfl⟩
    · simp [modEntry, hm']
    · simp [mapFind_mapAssign]
    · intro j hj
      simp [mapFind_mapAssign, hj]
  · intro hm hn
    have hm' : (mapFind S.mMod e.getKey).isSome = false := by
      simpa [LedgerDelta.inMod] using hm
    have hn' : (mapFind S.mNew e.getKey).isSome = true := hn
    refine ⟨LedgerDelta.mk (mapAssign S.mNew e.getKey e) S.mMod S.mDelete, ?_, ?_, ?_, rfl, ?_, rfl⟩
    · simp [modEntry, hm', hn']
    · simp [mapFind_mapAssign]
    · intro j hj
      simp [mapFind_mapAssign, hj]
    · simpa using hm'
  · intro hm hn
    have hm' : (mapFind S.mMod e.getKey).isSome = false := by
      simpa [LedgerDelta.inMod] using hm
    have hn' : (mapFind S.mNew e.getKey).isSome = false := by
      simpa [LedgerDelta.inNew] using hn
    constructor
    · unfold LedgerDelta.inDelete
      cases hd : setFind S.mDelete e.getKey <;> simp [modEntry, hm', hn', hd]
    · intro S' h
      cases hd : setFind S.mDelete e.getKey <;> simp [modEntry, hm', hn', hd] at h
      subst h
      refine ⟨?_, ?_, rfl, rfl⟩
      · simp [mapFind_mapAssign]
      · intro j hj
        simp [mapFind_mapAssign, hj]

/-- Witness for C7: in the state `mNew = {1 ↦ 10}`, `mMod = {2 ↦ 20}`, `mDelete = {3}`,
updating key 2 replaces its value in `mMod`; updating key 1 replaces its value in
`mNew` and leaves it out of `mMod`; updating key 3 (deleted) fails; updating key 4
puts it in `mMod`. -/
theorem modEntry_contract_witness :
    (∃ S', modEntry (LedgerDelta.mk [(1, ⟨1, 10⟩)] [(2, ⟨2, 20⟩)] [3]) ⟨2, 21⟩ = some S' ∧
      mapFind S'.mMod 2 = some ⟨2, 21⟩) ∧
    (∃ S', modEntry (LedgerDelta.mk [(1, ⟨1, 10⟩)] [(2, ⟨2, 20⟩)] [3]) ⟨1, 11⟩ = some S' ∧
      mapFind S'.mNew 1 = some ⟨1, 11⟩ ∧ mapFind S'.mMod 1 = none) ∧
    modEntry (LedgerDelta.mk [(1, ⟨1, 10⟩)] [(2, ⟨2, 20⟩)] [3]) ⟨3, 30⟩ = none ∧
    mapFind (LedgerDelta.mk [(1, ⟨1, 10⟩)] [(2, ⟨2, 20⟩), (4, ⟨4, 40⟩)] [3]).mMod 4
      = some ⟨4, 40⟩ := by
  refine ⟨?_, ?_, ?_, ?_⟩
  · obtain ⟨S', h1, h2, _⟩ :=
      (modEntry_contract (LedgerDelta.mk [(1, ⟨1, 10⟩)] [(2, ⟨2, 20⟩)] [3]) ⟨2, 21⟩).1
        (by unfold LedgerDelta.inMod; decide)
    exact ⟨S', h1, h2⟩
  · obtain ⟨S', h1, h2, _, _, h5, _⟩ :=
      (modEntry_contract (LedgerDelta.mk [(1, ⟨1, 10⟩)] [(2, ⟨2, 20⟩)] [3]) ⟨1, 11⟩).2.1
        (by unfold LedgerDelta.inMod; decide) (by unfold LedgerDelta.inNew; decide)
    exact ⟨S', h1, h2, h5⟩
  · exact ((modEntry_contract (LedgerDelta.mk [(1, ⟨1, 10⟩)] [(2, ⟨2, 20⟩)] [3]) ⟨3, 30⟩).2.2
      (by unfold LedgerDelta.inMod; decide) (by unfold LedgerDelta.inNew; decide)).1.mpr
      (by unfold LedgerDelta.inDelete; decide)
  · exact (((modEntry_contract (LedgerDelta.mk [(1, ⟨1, 10⟩)] [(2, ⟨2, 20⟩)] [3]) ⟨4, 40⟩).2.2
      (by unfold LedgerDelta.inMod; decide) (by unfold LedgerDelta.inNew; decide)).2
      (LedgerDelta.mk [(1, ⟨1, 10⟩)] [(2, ⟨2, 20⟩), (4, ⟨4, 40⟩)] [3]) (by decide)).1

/-! ## Sequences of two calls on one key -/

/-- C8. Create followed by delete cancels: for every well-formed delta `S` satisfying
the disjointness invariant and every entry `e` with key `k` on which `addEntry(e)`
succeeds, the following `deleteEntry(k)` succeeds and leaves exactly `S`; on a
fresh delta the two calls succeed and leave the fresh delta, in which `k` is
absent from `mNew`, `mMod` and `mDelete`. -/
theorem add_then_delete_cancels (S S1 : LedgerDelta) (e : EntryFrame) (hW : S.WellFormed)
    (hD : S.Disjoint) (hadd : addEntry S e = some S1) :
    deleteEntry S1 e.getKey = some S ∧
    (∃ F1 F2, addEntry LedgerDelta.fresh e = some F1 ∧ deleteEntry F1 e.getKey = some F2 ∧
      F2 = LedgerDelta.fresh ∧ mapFind F2.mNew e.getKey = none ∧
      mapFind F2.mMod e.getKey = none ∧ setFind F2.mDelete e.getKey = false) := by
  have key : ∀ (T T1 : LedgerDelta), T.WellFormed → T.Disjoint → addEntry T e = some T1 →
      deleteEntry T1 e.getKey = some T := by
    intro T T1 hTW hTD hT
    obtain ⟨a1, a2⟩ := view_addEntry hT
    have hdel := slotAdd_then_del ((disjoint_iff_view T).mp hTD e.getKey) a1
    cases hd : deleteEntry T1 e.getKey with
    | none =>
      rw [deleteEntry_eq_none hd] at hdel
      cases hdel
    | some T2 =>
      obtain ⟨d1, d2⟩ := view_deleteEntry hd
      have : T2 = T := by
        apply delta_ext (deleteEntry_wellFormed (addEntry_wellFormed hTW hT) hd) hTW
        intro j
        by_cases hj : j = e.getKey
        · subst hj
          rw [hdel] at d1
          exact (Option.some.inj d1).symm
        · rw [d2 j hj, a2 j hj]
      rw [this]
  refine ⟨key S S1 hW hD hadd, ?_⟩
  have hf : addEntry LedgerDelta.fresh e
      = some (LedgerDelta.mk [(e.getKey, e)] [] []) := by
    simp [addEntry, LedgerDelta.fresh, setFind, mapFind, mapAssign]
  refine ⟨_, LedgerDelta.fresh, hf, key _ _ fresh_wellFormed fresh_disjoint hf, rfl, ?_, ?_, ?_⟩ <;>
    simp [LedgerDelta.fresh, mapFind, setFind]

/-- Witness for C8: creating key 3 in the state `mNew = {1 ↦ 10}`, `mMod = {2 ↦ 20}`,
`mDelete = {3, 4}` moves it into `mMod`, and deleting it again gives the state back. -/
theorem add_then_delete_cancels_witness :
    addEntry (LedgerDelta.mk [(1, ⟨1, 10⟩)] [(2, ⟨2, 20⟩)] [3, 4]) ⟨3, 30⟩
      = some (LedgerDelta.mk [(1, ⟨1, 10⟩)] [(2, ⟨2, 20⟩), (3, ⟨3, 30⟩)] [4]) ∧
    deleteEntry (LedgerDelta.mk [(1, ⟨1, 10⟩)] [(2, ⟨2, 20⟩), (3, ⟨3, 30⟩)] [4]) 3
      = some (LedgerDelta.mk [(1, ⟨1, 10⟩)] [(2, ⟨2, 20⟩)] [3, 4]) :=
  ⟨by decide,
    (add_then_delete_cancels (LedgerDelta.mk [(1, ⟨1, 10⟩)] [(2, ⟨2, 20⟩)] [3, 4])
      (LedgerDelta.mk [(1, ⟨1, 10⟩)] [(2, ⟨2, 20⟩), (3, ⟨3, 30⟩)] [4]) ⟨3, 30⟩
      (wellFormed_of_lists _ (by decide) (by decide) (by decide) (by decide) (by decide))
      (disjoint_of_keys _ (by decide) (by decide)) (by decide)).1⟩

/-- C9. Delete followed by create nets to an update: on a fresh delta, for every
entry `e2` with key `k`, `deleteEntry(k)` succeeds, the following `addEntry(e2)`
succeeds, and afterwards `mMod` holds exactly `k ↦ e2` while `mNew` and
`mDelete` are empty. -/
theorem delete_then_add_fresh (e2 : EntryFrame) :
    ∃ S1 S2, deleteEntry LedgerDelta.fresh e2.getKey = some S1 ∧ addEntry S1 e2 = some S2 ∧
      S2.mMod = [(e2.getKey, e2)] ∧ mapFind S2.mMod e2.getKey = some e2 ∧
      S2.mNew = [] ∧ S2.mDelete = [] := by
  refine ⟨LedgerDelta.mk [] [] [e2.getKey], LedgerDelta.mk [] [(e2.getKey, e2)] [], ?_, ?_, rfl, ?_, rfl, rfl⟩
  · simp [deleteEntry, LedgerDelta.fresh, mapFind, setFind, mapErase, setInsert]
  · simp [addEntry, setFind, mapAssign, setErase]
  · simp [mapFind]

/-- C10 (as stated, refuted). In the state left by `deleteEntry(1)` on a fresh delta
(`mDelete = {1}`, which satisfies the disjointness invariant), `addEntry(1 ↦ 10)`
and then `modEntry(1 ↦ 20)` both succeed, and afterwards key 1 is in `mMod` with
value 20 and is not in `mNew`. -/
theorem add_then_mod_after_delete :
    deleteEntry LedgerDelta.fresh 1 = some (LedgerDelta.mk [] [] [1]) ∧
    (LedgerDelta.mk [] [] [1]).Disjoint ∧
    addEntry (LedgerDelta.mk [] [] [1]) ⟨1, 10⟩ = some (LedgerDelta.mk [] [(1, ⟨1, 10⟩)] []) ∧
    modEntry (LedgerDelta.mk [] [(1, ⟨1, 10⟩)] []) ⟨1, 20⟩
      = some (LedgerDelta.mk [] [(1, ⟨1, 20⟩)] []) ∧
    mapFind (LedgerDelta.mk [] [(1, ⟨1, 20⟩)] []).mNew 1 = none ∧
    mapFind (LedgerDelta.mk [] [(1, ⟨1, 20⟩)] []).mMod 1 = some ⟨1, 20⟩ :=
  ⟨by decide, disjoint_of_keys _ (by decide) (by decide), by decide, by decide, by decide,
    by decide⟩

/-- C10 (amended). For every delta satisfying the disjointness invariant and every
two entries `e1`, `e2` with the same key `k`, if `addEntry(e1)` and then
`modEntry(e2)` both succeed, then: when `k` was not in `mDelete` before the two
calls, `k` is afterwards in `mNew` with value `e2` and in neither `mMod` nor
`mDelete`; when `k` was in `mDelete`, `k` is afterwards in `mMod` with value `e2`
and in neither `mNew` nor `mDelete`. -/
theorem add_then_mod (S S1 S2 : LedgerDelta) (e1 e2 : EntryFrame) (hD : S.Disjoint)
    (hk : e1.getKey = e2.getKey) (hadd : addEntry S e1 = some S1)
    (hmod : modEntry S1 e2 = some S2) :
    (¬ S.inDelete e2.getKey →
      mapFind S2.mNew e2.getKey = some e2 ∧ mapFind S2.mMod e2.getKey = none ∧
        setFind S2.mDelete e2.getKey = false) ∧
    (S.inDelete e2.getKey →
      mapFind S2.mMod e2.getKey = some e2 ∧ mapFind S2.mNew e2.getKey = none ∧
        setFind S2.mDelete e2.getKey = false) := by
  obtain ⟨a1, _⟩ := view_addEntry hadd
  obtain ⟨m1, _⟩ := view_modEntry hmod
  rw [hk] at a1
  have h := slotAdd_then_mod ((disjoint_iff_view S).mp hD e2.getKey) a1 m1
  constructor
  · intro hd
    have hd' : (S.view e2.getKey).d = false := by
      simpa [LedgerDelta.inDelete, LedgerDelta.view] using hd
    rw [hd'] at h
    simp only [LedgerDelta.view, Bool.false_eq_true, if_false, Slot.mk.injEq] at h
    exact ⟨h.1, h.2.1, h.2.2⟩
  · intro hd
    have hd' : (S.view e2.getKey).d = true := hd
    rw [hd'] at h
    simp only [LedgerDelta.view, if_true, Slot.mk.injEq] at h
    exact ⟨h.2.1, h.1, h.2.2⟩

/-- Witness for C10 (amended): in the state `mMod = {2 ↦ 20}`, `mDelete = {3}`,
creating key 1 and then updating it leaves `mNew = {1 ↦ 11}`. -/
theorem add_then_mod_witness :
    addEntry (LedgerDelta.mk [] [(2, ⟨2, 20⟩)] [3]) ⟨1, 10⟩
      = some (LedgerDelta.mk [(1, ⟨1, 10⟩)] [(2, ⟨2, 20⟩)] [3]) ∧
    modEntry (LedgerDelta.mk [(1, ⟨1, 10⟩)] [(2, ⟨2, 20⟩)] [3]) ⟨1, 11⟩
      = some (LedgerDelta.mk [(1, ⟨1, 11⟩)] [(2, ⟨2, 20⟩)] [3]) ∧
    mapFind (LedgerDelta.mk [(1, ⟨1, 11⟩)] [(2, ⟨2, 20⟩)] [3]).mNew 1 = some ⟨1, 11⟩ ∧
    mapFind (LedgerDelta.mk [(1, ⟨1, 11⟩)] [(2, ⟨2, 20⟩)] [3]).mMod 1 = none ∧
    setFind (LedgerDelta.mk [(1, ⟨1, 11⟩)] [(2, ⟨2, 20⟩)] [3]).mDelete 1 = false :=
  ⟨by decide, by decide,
    (add_then_mod (LedgerDelta.mk [] [(2, ⟨2, 20⟩)] [3])
      (LedgerDelta.mk [(1, ⟨1, 10⟩)] [(2, ⟨2, 20⟩)] [3])
      (LedgerDelta.mk [(1, ⟨1, 11⟩)] [(2, ⟨2, 20⟩)] [3]) ⟨1, 10⟩ ⟨1, 11⟩
      (disjoint_of_keys _ (by decide) (by decide)) rfl (by decide) (by decide)).1
      (by unfold LedgerDelta.inDelete; decide)⟩


/-- C11. Last write wins: for every delta `S` and every two entries `e1`, `e2` with
the same key `k`, `modEntry(e1)` followed by `modEntry(e2)` fails exactly when
`modEntry(e2)` alone fails on `S`, and otherwise leaves the same state as
`modEntry(e2)` alone; on a fresh delta both calls succeed and leave `mMod`
holding exactly `k ↦ e2` with `mNew` and `mDelete` empty. -/
theorem mod_then_mod (S : LedgerDelta) (e1 e2 : EntryFrame) (hk : e1.getKey = e2.getKey) :
    (modEntry S e1).bind (fun S1 => modEntry S1 e2) = modEntry S e2 ∧
    (∃ S1 S2, modEntry LedgerDelta.fresh e1 = some S1 ∧ modEntry S1 e2 = some S2 ∧
      S2.mMod = [(e2.getKey, e2)] ∧ S2.mNew = [] ∧ S2.mDelete = []) := by
  constructor
  · unfold modEntry
    simp only [hk]
    cases hm : (mapFind S.mMod e2.getKey).isSome <;>
      cases hn : (mapFind S.mNew e2.getKey).isSome <;>
      cases hd : setFind S.mDelete e2.getKey <;>
      simp [mapFind_mapAssign, mapAssign_mapAssign, hm, hn, hd]
  · refine ⟨LedgerDelta.mk [] [(e2.getKey, e1)] [], LedgerDelta.mk [] [(e2.getKey, e2)] [],
      ?_, ?_, rfl, rfl, rfl⟩
    · simp [modEntry, LedgerDelta.fresh, mapFind, setFind, mapAssign, hk]
    · simp [modEntry, mapFind, mapAssign]

/-- Witness for C11: in the state `mNew = {1 ↦ 10}`, `mMod = {2 ↦ 20}`, `mDelete = {3}`,
updating key 1 twice leaves `mNew = {1 ↦ 12}`, as updating it once with the last
value does; updating key 3 (deleted) twice fails as updating it once does. -/
theorem mod_then_mod_witness :
    (modEntry (LedgerDelta.mk [(1, ⟨1, 10⟩)] [(2, ⟨2, 20⟩)] [3]) ⟨1, 11⟩).bind
        (fun S1 => modEntry S1 ⟨1, 12⟩)
      = some (LedgerDelta.mk [(1, ⟨1, 12⟩)] [(2, ⟨2, 20⟩)] [3]) ∧
    (modEntry (LedgerDelta.mk [(1, ⟨1, 10⟩)] [(2, ⟨2, 20⟩)] [3]) ⟨3, 31⟩).bind
        (fun S1 => modEntry S1 ⟨3, 32⟩) = none :=
  ⟨((mod_then_mod (LedgerDelta.mk [(1, ⟨1, 10⟩)] [(2, ⟨2, 20⟩)] [3]) ⟨1, 11⟩ ⟨1, 12⟩ rfl).1).trans
      (by decide),
    ((mod_then_mod (LedgerDelta.mk [(1, ⟨1, 10⟩)] [(2, ⟨2, 20⟩)] [3]) ⟨3, 31⟩ ⟨3, 32⟩ rfl).1).trans
      (by decide)⟩

/-- C13. Double create is rejected: for every delta and every two entries `e1`, `e2`
with the same key, whenever `addEntry(e1)` succeeds the following `addEntry(e2)`
fails. -/
theorem add_twice (S S1 : LedgerDelta) (e1 e2 : EntryFrame) (hk : e1.getKey = e2.getKey)
    (h1 : addEntry S e1 = some S1) : addEntry S1 e2 = none := by
  obtain ⟨a1, _⟩ := view_addEntry h1
  have h2 : slotAdd (S1.view e2.getKey) e2 = none := by
    rw [hk] at a1
    exact slotAdd_twice a1
  cases h : addEntry S1 e2 with
  | none => rfl
  | some S2 =>
    rw [(view_addEntry h).1] at h2
    cases h2

/-- Witness for C13: creating key 3 in `mNew = {1 ↦ 10}`, `mMod = {2 ↦ 20}`,
`mDelete = {3}` resurrects it into `mMod`, and creating it again fails. -/
theorem add_twice_witness :
    addEntry (LedgerDelta.mk [(1, ⟨1, 10⟩)] [(2, ⟨2, 20⟩)] [3]) ⟨3, 30⟩
      = some (LedgerDelta.mk [(1, ⟨1, 10⟩)] [(2, ⟨2, 20⟩), (3, ⟨3, 30⟩)] []) ∧
    addEntry (LedgerDelta.mk [(1, ⟨1, 10⟩)] [(2, ⟨2, 20⟩), (3, ⟨3, 30⟩)] []) ⟨3, 31⟩ = none :=
  ⟨by decide,
    add_twice (LedgerDelta.mk [(1, ⟨1, 10⟩)] [(2, ⟨2, 20⟩)] [3])
      (LedgerDelta.mk [(1, ⟨1, 10⟩)] [(2, ⟨2, 20⟩), (3, ⟨3, 30⟩)] []) ⟨3, 30⟩ ⟨3, 31⟩ rfl
      (by decide)⟩


/-! ## Serialization -/

/-- C14. Shape of the serialized meta: for every delta the record sequence built by
`getTransactionMeta` is one live record carrying the stored entry content per
entry of `mNew`, then one per entry of `mMod`, then one dead record carrying the
key per key of `mDelete`, each group in container order; its length is
`|mNew| + |mMod| + |mDelete|` and no dead record precedes a live one.  (The
method is `const`: it is a function of the delta and leaves it as it is.) -/
theorem getTransactionMeta_shape (S : LedgerDelta) :
    getTransactionMeta S =
      S.mNew.map (fun k => CLFEntryBase.liveEntry k.2.mEntry) ++
        S.mMod.map (fun k => CLFEntryBase.liveEntry k.2.mEntry) ++
        S.mDelete.map CLFEntryBase.deadEntry ∧
    (getTransactionMeta S).length = S.mNew.length + S.mMod.length + S.mDelete.length ∧
    (getTransactionMeta S).Pairwise (fun a b => a.isDead = true → b.isDead = true) := by
  refine ⟨getTransactionMeta_eq S, ?_, ?_⟩
  · rw [getTransactionMeta_eq]
    simp [Nat.add_assoc]
  · rw [getTransactionMeta_eq, List.pairwise_append]
    refine ⟨pairwise_of_all_live _ ?_, pairwise_of_all_dead _ ?_, ?_⟩
    · intro a ha
      rcases List.mem_append.mp ha with h | h <;>
        obtain ⟨p, _, rfl⟩ := List.mem_map.mp h <;> rfl
    · intro a ha
      obtain ⟨k, _, rfl⟩ := List.mem_map.mp ha
      rfl
    · intro a _ b hb _
      obtain ⟨k, _, rfl⟩ := List.mem_map.mp hb
      rfl

/-! ## End-to-end scenarios -/

/-- C16. Three-level composition: for every key `k` and values `v1`, `v2`, starting
from fresh deltas `L`, `T`, `Op1`, `Op2`, the calls `Op1.addEntry(k = v1)`,
`T.merge(Op1)`, `Op2.modEntry(k = v2)`, `T.merge(Op2)`, `L.merge(T)` all succeed
and leave `L.mNew = {k ↦ v2}` with `L.mMod` and `L.mDelete` empty. -/
theorem three_level_composition (k : LedgerKey) (v1 v2 : Nat) :
    ∃ Op1 T1 Op2 T2 L1,
      addEntry LedgerDelta.fresh (EntryFrame.mk k v1) = some Op1 ∧
      merge LedgerDelta.fresh Op1 = some T1 ∧
      modEntry LedgerDelta.fresh (EntryFrame.mk k v2) = some Op2 ∧
      merge T1 Op2 = some T2 ∧
      merge LedgerDelta.fresh T2 = some L1 ∧
      L1.mNew = [(k, EntryFrame.mk k v2)] ∧ L1.mMod = [] ∧ L1.mDelete = [] := by
  refine ⟨LedgerDelta.mk [(k, EntryFrame.mk k v1)] [] [],
    LedgerDelta.mk [(k, EntryFrame.mk k v1)] [] [],
    LedgerDelta.mk [] [(k, EntryFrame.mk k v2)] [],
    LedgerDelta.mk [(k, EntryFrame.mk k v2)] [] [],
    LedgerDelta.mk [(k, EntryFrame.mk k v2)] [] [], ?_, ?_, ?_, ?_, ?_, rfl, rfl, rfl⟩ <;>
    simp [merge, forEach, addEntry, modEntry, LedgerDelta.fresh, EntryFrame.getKey, setFind,
      mapFind, mapAssign]

/-- Witness for C16: the scenario of the spec, key `A = 1`, `v1 = 10`, `v2 = 20`. -/
theorem three_level_composition_witness :
    ((addEntry LedgerDelta.fresh ⟨1, 10⟩).bind (fun Op1 =>
      (merge LedgerDelta.fresh Op1).bind (fun T1 =>
        (modEntry LedgerDelta.fresh ⟨1, 20⟩).bind (fun Op2 =>
          (merge T1 Op2).bind (fun T2 => merge LedgerDelta.fresh T2)))))
      = some (LedgerDelta.mk [(1, ⟨1, 20⟩)] [] []) := by
  obtain ⟨Op1, T1, Op2, T2, L1, h1, h2, h3, h4, h5, h6, h7, h8⟩ := three_level_composition 1 10 20
  obtain ⟨n, m, d⟩ := L1
  simp only at h6 h7 h8
  subst h6 h7 h8
  simp only [h1, h2, h3, h4, h5, Option.bind]

/-- C17. Resurrection across scopes: for every delta `T` satisfying the disjointness
invariant with the key `k` of an entry `e` in `T.mDelete`, and the child `Op`
left by `addEntry(e)` on a fresh delta, `T.merge(Op)` succeeds and afterwards `k`
is in `mMod` with value `e`, in neither `mDelete` nor `mNew`, and every other
key has in all three containers what it had before. -/
theorem resurrection_across_scopes (T : LedgerDelta) (e : EntryFrame) (hD : T.Disjoint)
    (hk : T.inDelete e.getKey) :
    ∃ Op R, addEntry LedgerDelta.fresh e = some Op ∧ merge T Op = some R ∧
      mapFind R.mMod e.getKey = some e ∧ setFind R.mDelete e.getKey = false ∧
      mapFind R.mNew e.getKey = none ∧
      ∀ j, j ≠ e.getKey → mapFind R.mNew j = mapFind T.mNew j ∧
        mapFind R.mMod j = mapFind T.mMod j ∧ setFind R.mDelete j = setFind T.mDelete j := by
  have hk' : setFind T.mDelete e.getKey = true := hk
  have hn : mapFind T.mNew e.getKey = none := by
    cases h : mapFind T.mNew e.getKey with
    | none => rfl
    | some x =>
      exact absurd ⟨by simp [LedgerDelta.inNew, h], hk⟩ (hD e.getKey).2.1
  refine ⟨LedgerDelta.mk [(e.getKey, e)] [] [],
    LedgerDelta.mk T.mNew (mapAssign T.mMod e.getKey e) (setErase T.mDelete e.getKey),
    ?_, ?_, ?_, ?_, hn, ?_⟩
  · simp [addEntry, LedgerDelta.fresh, setFind, mapFind, mapAssign]
  · simp [merge, forEach, addEntry, hk']
  · simp [mapFind_mapAssign]
  · simp [setFind_setErase]
  · intro j hj
    simp [mapFind_mapAssign, setFind_setErase, hj]

/-- Witness for C17: the scenario of the spec, `T` fresh after `deleteEntry(B)` with
`B = 2`, and the child creating `B = 5`. -/
theorem resurrection_across_scopes_witness :
    deleteEntry LedgerDelta.fresh 2 = some (LedgerDelta.mk [] [] [2]) ∧
    ∃ Op R, addEntry LedgerDelta.fresh ⟨2, 5⟩ = some Op ∧ merge (LedgerDelta.mk [] [] [2]) Op = some R ∧
      mapFind R.mMod 2 = some ⟨2, 5⟩ ∧ setFind R.mDelete 2 = false ∧ mapFind R.mNew 2 = none :=
  ⟨by decide, by
    obtain ⟨Op, R, h1, h2, h3, h4, h5, _⟩ :=
      resurrection_across_scopes (LedgerDelta.mk [] [] [2]) ⟨2, 5⟩
        (disjoint_of_keys _ (by decide) (by decide)) (by unfold LedgerDelta.inDelete; decide)
    exact ⟨Op, R, h1, h2, h3, h4, h5⟩⟩

/-! ## Trust lines -/

/-- C18 (the code at the failing input). A valid trust line with limit 100 and
balance 50, whose `INSERT` affects one row: `storeAdd` writes a row with
`tlimit = 100`, `authorized` set and `balance = 0` (the column default), and
hands the delta the trust line with balance 50; `storeChange` on the same trust
line writes the balance 50. -/
theorem storeAdd_drops_balance :
    TrustFrame.isValid (TrustLineEntry.mk 7 false 8 9 100 50 true) = true ∧
    storeAdd (TrustLineEntry.mk 7 false 8 9 100 50 true) 1
      = StoreOutcome.stored (TrustLinesRow.mk 7 8 9 100 0 true)
          (TrustLineEntry.mk 7 false 8 9 100 50 true) ∧
    (TrustLinesRow.mk 7 8 9 100 0 true).balance ≠ (TrustLineEntry.mk 7 false 8 9 100 50 true).balance ∧
    storeChange (TrustLineEntry.mk 7 false 8 9 100 50 true) 1
      = StoreOutcome.stored (TrustLinesRow.mk 7 8 9 100 50 true)
          (TrustLineEntry.mk 7 false 8 9 100 50 true) := by
  decide

/-! ## Frame and order -/

/-- C19. Per-key frame: for every delta and every key `j`, a successful `addEntry`,
`deleteEntry` or `modEntry` on a key different from `j` leaves the lookup of `j`
in `mNew` and in `mMod` (membership and stored value) and the membership of `j`
in `mDelete` as they were. -/
theorem per_key_frame (S S' : LedgerDelta) (j : LedgerKey) :
    (∀ e, j ≠ e.getKey → addEntry S e = some S' →
      mapFind S'.mNew j = mapFind S.mNew j ∧ mapFind S'.mMod j = mapFind S.mMod j ∧
        setFind S'.mDelete j = setFind S.mDelete j) ∧
    (∀ k, j ≠ k → deleteEntry S k = some S' →
      mapFind S'.mNew j = mapFind S.mNew j ∧ mapFind S'.mMod j = mapFind S.mMod j ∧
        setFind S'.mDelete j = setFind S.mDelete j) ∧
    (∀ e, j ≠ e.getKey → modEntry S e = some S' →
      mapFind S'.mNew j = mapFind S.mNew j ∧ mapFind S'.mMod j = mapFind S.mMod j ∧
        setFind S'.mDelete j = setFind S.mDelete j) := by
  have split : ∀ {A B : LedgerDelta}, A.view j = B.view j →
      mapFind A.mNew j = mapFind B.mNew j ∧ mapFind A.mMod j = mapFind B.mMod j ∧
        setFind A.mDelete j = setFind B.mDelete j := by
    intro A B h
    simp only [LedgerDelta.view, Slot.mk.injEq] at h
    exact h
  exact ⟨fun e hj h => split ((view_addEntry h).2 j hj),
    fun k hj h => split ((view_deleteEntry h).2 j hj),
    fun e hj h => split ((view_modEntry h).2 j hj)⟩

/-- Witness for C19: deleting key 2 from `mNew = {1 ↦ 10}`, `mMod = {2 ↦ 20}`,
`mDelete = {3}` leaves key 1 in `mNew` with value 10 and out of `mMod` and
`mDelete`. -/
theorem per_key_frame_witness :
    deleteEntry (LedgerDelta.mk [(1, ⟨1, 10⟩)] [(2, ⟨2, 20⟩)] [3]) 2
      = some (LedgerDelta.mk [(1, ⟨1, 10⟩)] [] [2, 3]) ∧
    mapFind (LedgerDelta.mk [(1, ⟨1, 10⟩)] [] [2, 3]).mNew 1
      = mapFind (LedgerDelta.mk [(1, ⟨1, 10⟩)] [(2, ⟨2, 20⟩)] [3]).mNew 1 ∧
    mapFind (LedgerDelta.mk [(1, ⟨1, 10⟩)] [] [2, 3]).mMod 1
      = mapFind (LedgerDelta.mk [(1, ⟨1, 10⟩)] [(2, ⟨2, 20⟩)] [3]).mMod 1 ∧
    setFind (LedgerDelta.mk [(1, ⟨1, 10⟩)] [] [2, 3]).mDelete 1
      = setFind (LedgerDelta.mk [(1, ⟨1, 10⟩)] [(2, ⟨2, 20⟩)] [3]).mDelete 1 :=
  ⟨by decide,
    (per_key_frame (LedgerDelta.mk [(1, ⟨1, 10⟩)] [(2, ⟨2, 20⟩)] [3])
      (LedgerDelta.mk [(1, ⟨1, 10⟩)] [] [2, 3]) 1).2.1 2 (by decide) (by decide)⟩

/-- C20. Merge does not depend on replay order: for every well-formed parent and
every well-formed child satisfying the disjointness invariant, replaying the
calls of the merge (one `deleteEntry` per deleted key of the child, one
`addEntry` per new entry, one `modEntry` per modified entry) on the parent in
any order fails exactly when `merge` fails, and otherwise leaves the same
`mNew`, `mMod` and `mDelete` as `merge`. -/
theorem merge_order_independent (P C : LedgerDelta) (l : List Call) (hP : P.WellFormed)
    (hC : C.WellFormed) (dC : C.Disjoint) (hl : l.Perm (mergeCalls C)) :
    replay P l = merge P C := by
  rw [merge_eq_replay]
  exact replay_perm hP (mergeCalls_nodup C hC dC) hl

/-- Witness for C20: the child `mNew = {3 ↦ 30}`, `mMod = {1 ↦ 11}`, `mDelete = {2}`
replayed on the parent `mNew = {1 ↦ 10}`, `mMod = {2 ↦ 20}`, `mDelete = {3}` as
update, create, delete gives what the merge gives. -/
theorem merge_order_independent_witness :
    replay (LedgerDelta.mk [(1, ⟨1, 10⟩)] [(2, ⟨2, 20⟩)] [3])
        [Call.mod ⟨1, 11⟩, Call.add ⟨3, 30⟩, Call.del 2]
      = merge (LedgerDelta.mk [(1, ⟨1, 10⟩)] [(2, ⟨2, 20⟩)] [3])
          (LedgerDelta.mk [(3, ⟨3, 30⟩)] [(1, ⟨1, 11⟩)] [2]) ∧
    merge (LedgerDelta.mk [(1, ⟨1, 10⟩)] [(2, ⟨2, 20⟩)] [3])
        (LedgerDelta.mk [(3, ⟨3, 30⟩)] [(1, ⟨1, 11⟩)] [2])
      = some (LedgerDelta.mk [(1, ⟨1, 11⟩)] [(3, ⟨3, 30⟩)] [2]) :=
  ⟨merge_order_independent (LedgerDelta.mk [(1, ⟨1, 10⟩)] [(2, ⟨2, 20⟩)] [3])
      (LedgerDelta.mk [(3, ⟨3, 30⟩)] [(1, ⟨1, 11⟩)] [2])
      [Call.mod ⟨1, 11⟩, Call.add ⟨3, 30⟩, Call.del 2]
      (wellFormed_of_lists _ (by decide) (by decide) (by decide) (by decide) (by decide))
      (wellFormed_of_lists _ (by decide) (by decide) (by decide) (by decide) (by decide))
      (disjoint_of_keys _ (by decide) (by decide)) (by decide),
    by decide⟩

end Stellar
